import Mathlib

/-!
Verification of the read-generation engine of `Art.py` (sim3C).

The Python source is shallowly embedded: every random draw made through the
shared `Art.RANDOM_STATE` stream (`UNIFORM`, `RANDINT`) is modelled as
consuming one element of an explicit list of draws, in exactly the order the
source consumes them.  Fallible operations (Python exceptions: `IndexError`,
`KeyError`, `AssertionError`, `IOError`) return `none`.  Uniform floats are
modelled as rationals; `RANDINT(lo, hi)` maps a supplied natural `r` to
`lo + r % (hi - lo)`, which is always in `[lo, hi)` as numpy guarantees.
-/

/-- One element of the shared random stream: either a uniform float draw
(`Art.UNIFORM`, modelled as a rational) or an integer draw
(`Art.RANDINT`, modelled by the raw natural that the bounds are applied to). -/
inductive RVal where
  | unif (q : ℚ)
  | rint (n : ℕ)
deriving DecidableEq, Repr

/-- Consume one uniform draw from the stream; `none` if the stream is
exhausted or the next element is not a uniform draw. -/
def takeUnif : List RVal → Option (ℚ × List RVal)
  | RVal.unif q :: rest => some (q, rest)
  | _ => none

/-- Consume one `RANDINT(lo, hi)` draw: the raw natural from the stream is
mapped into `[lo, hi)`.  numpy raises `ValueError` when `lo >= hi`, modelled
as `none`. -/
def takeRandint (lo hi : ℕ) : List RVal → Option (ℕ × List RVal)
  | RVal.rint n :: rest => if lo < hi then some (lo + n % (hi - lo), rest) else none
  | _ => none

/-- Python list slice `l[:stop]` for a possibly negative `stop`
(a negative stop counts from the end). -/
def pySliceTo {α : Type} (l : List α) (stop : ℤ) : List α :=
  if stop < 0 then l.take (l.length - stop.natAbs) else l.take stop.toNat

namespace Art

/-- `Art.COMPLEMENT_TABLE`: the character mapping built by
`string.maketrans('acgtumrwsykvhdbnACGTUMRWSYKVHDBN', 'TGCAAnnnnnnnnnnnTGCAANNNNNNNNNNN')`;
characters outside the first string are left unchanged. -/
def complementChar (c : Char) : Char :=
  match c with
  | 'a' => 'T' | 'c' => 'G' | 'g' => 'C' | 't' => 'A' | 'u' => 'A'
  | 'm' => 'n' | 'r' => 'n' | 'w' => 'n' | 's' => 'n' | 'y' => 'n'
  | 'k' => 'n' | 'v' => 'n' | 'h' => 'n' | 'd' => 'n' | 'b' => 'n'
  | 'n' => 'n'
  | 'A' => 'T' | 'C' => 'G' | 'G' => 'C' | 'T' => 'A' | 'U' => 'A'
  | 'M' => 'N' | 'R' => 'N' | 'W' => 'N' | 'S' => 'N' | 'Y' => 'N'
  | 'K' => 'N' | 'V' => 'N' | 'H' => 'N' | 'D' => 'N' | 'B' => 'N'
  | 'N' => 'N'
  | other => other

/-- `Art.revcomp`: `seq.translate(Art.COMPLEMENT_TABLE)[::-1]` — translate
every character through the complement table, then reverse. -/
def revcomp (seq : List Char) : List Char :=
  (seq.map complementChar).reverse

/-- `Art.make_mutable`: uppercase the input sequence (`list(input_seq.upper())`). -/
def make_mutable (seq : List Char) : List Char :=
  seq.map Char.toUpper

end Art

/-- On the uppercase primary alphabet plus `N`, the complement table is an
involution. -/
theorem Art.complementChar_involutive (c : Char)
    (h : c ∈ ['A', 'C', 'G', 'T', 'N']) :
    Art.complementChar (Art.complementChar c) = c := by
  fin_cases h <;> rfl

/-- C3 counterexample: the claim quantifies over sequences containing `U`
(and lowercase and IUPAC ambiguity letters), but
`revcomp(revcomp("U")) = "T" ≠ "U"`: the table sends `U` to `A` and `A`
back to `T`, so double reverse-complement is not the identity there. -/
theorem revcomp_not_involutive_on_U :
    Art.revcomp (Art.revcomp ['U']) = ['T'] ∧ Art.revcomp (Art.revcomp ['U']) ≠ ['U'] := by
  constructor <;> decide

/-- C3 (amended): for every sequence over the uppercase letters
`A, C, G, T, N`, applying `Art.revcomp` twice returns the original sequence.
(The original claim fails for `U`, for lowercase letters — which come back
uppercased — and for IUPAC ambiguity letters, which come back as `N`.) -/
theorem revcomp_revcomp (s : List Char)
    (h : ∀ c ∈ s, c ∈ ['A', 'C', 'G', 'T', 'N']) :
    Art.revcomp (Art.revcomp s) = s := by
  unfold Art.revcomp
  rw [List.map_reverse, List.reverse_reverse, List.map_map]
  calc (s.map (Art.complementChar ∘ Art.complementChar))
      = s.map id := List.map_congr_left (fun c hc => Art.complementChar_involutive c (h c hc))
    _ = s := List.map_id s

/-- Witness for the amended C3 theorem at the concrete sequence
`"ACGTN"`. -/
theorem revcomp_revcomp_witness :
    Art.revcomp (Art.revcomp ['A', 'C', 'G', 'T', 'N']) = ['A', 'C', 'G', 'T', 'N'] :=
  revcomp_revcomp ['A', 'C', 'G', 'T', 'N'] (by decide)

namespace EmpDist

/-- `EmpDist.ALL_SUBS`: the list of the four primary bases
(`list(PRIMARY_SYMB)`). -/
def ALL_SUBS : List Char := ['A', 'C', 'G', 'T']

/-- `EmpDist.KO_SUBS_LOOKUP`: for each primary base, the three other primary
bases (`PRIMARY_SYMB - set(si)`); any other key raises `KeyError` (`none`). -/
def KO_SUBS_LOOKUP (c : Char) : Option (List Char) :=
  match c with
  | 'A' => some ['C', 'G', 'T']
  | 'C' => some ['A', 'G', 'T']
  | 'G' => some ['A', 'C', 'T']
  | 'T' => some ['A', 'C', 'G']
  | _ => none

end EmpDist

/-- The zero cell of a `np.zeros(..., dtype=np.str)` array reads back as the
empty string, which is falsy in Python; we model that cell by the NUL
character. -/
def NULC : Char := Char.ofNat 0

/-- `Art.random_base(excl)`: with a falsy `excl` (Python `None`, or the empty
string read from an untouched numpy cell) draw uniformly from the four
primary bases; otherwise draw from the 3-element knockout table for `excl`
(`KeyError` → `none` when `excl` is not a primary base). -/
def Art.random_base (excl : Option Char) (s : List RVal) : Option (Char × List RVal) :=
  if excl = none ∨ excl = some NULC then
    match takeRandint 0 4 s with
    | some (r, s1) => some (EmpDist.ALL_SUBS.getD r 'A', s1)
    | none => none
  else
    match excl.bind EmpDist.KO_SUBS_LOOKUP with
    | none => none
    | some ko =>
      match takeRandint 0 3 s with
      | some (r, s1) => some (ko.getD r 'A', s1)
      | none => none

namespace SeqRead

/-- The deletion-placement loop shared by `get_indel` and `get_indel_2`
(`while j >= 0: pos = RANDINT(0, read_len); if pos == 0: continue;
if pos not in indel: indel[pos] = '-'; j -= 1`), placing `n` deletions.
An exhausted stream models the loop still running (`none`); numpy raises on
`RANDINT(0, 0)`, also `none`. -/
def place_dels (read_len : ℕ) : ℕ → List (ℕ × Char) → List RVal →
    Option (List (ℕ × Char) × List RVal)
  | 0, indel, s => some (indel, s)
  | n+1, indel, RVal.rint r :: s1 =>
    if 0 < read_len then
      if r % read_len = 0 then place_dels read_len (n+1) indel s1
      else if (indel.lookup (r % read_len)).isSome then place_dels read_len (n+1) indel s1
      else place_dels read_len n ((r % read_len, '-') :: indel) s1
    else none
  | _+1, _, _ => none

/-- The insertion-placement loop shared by `get_indel` and `get_indel_2`
(`while j >= 0: pos = RANDINT(0, read_len); if pos not in indel:
indel[pos] = Art.random_base(); j -= 1`), placing `n` insertions.  The body
of `Art.random_base()` (no exclusion: a uniform of the four primary bases)
is inlined so each placement consumes the position draw and then the base
draw, exactly as the source does. -/
def place_ins (read_len : ℕ) : ℕ → List (ℕ × Char) → List RVal →
    Option (List (ℕ × Char) × List RVal)
  | 0, indel, s => some (indel, s)
  | n+1, indel, RVal.rint r :: s1 =>
    if 0 < read_len then
      if (indel.lookup (r % read_len)).isSome then place_ins read_len (n+1) indel s1
      else
        match s1 with
        | RVal.rint rb :: s2 =>
          place_ins read_len n ((r % read_len, EmpDist.ALL_SUBS.getD (rb % 4) 'A') :: indel) s2
        | _ => none
    else none
  | _+1, _, _ => none

/-- The deletion candidate loop of `get_indel`
(`for i in xrange(len(self.del_rate)-1, -1, -1): if self.del_rate[i] >= UNIFORM():
del_len = i+1; ...place...; break`).  The counter argument is one more than
the Python loop index, so it starts at `len(del_rate)`.  Returns `del_len`
(0 when no candidate fires). -/
def del_loop (read_len : ℕ) (del_rate : List ℚ) :
    ℕ → List (ℕ × Char) → List RVal → Option (ℕ × List (ℕ × Char) × List RVal)
  | 0, indel, s => some (0, indel, s)
  | i+1, indel, s =>
    match takeUnif s with
    | none => none
    | some (u, s1) =>
      if del_rate.getD i 0 ≥ u then
        match place_dels read_len (i+1) indel s1 with
        | some (indel2, s2) => some (i+1, indel2, s2)
        | none => none
      else del_loop read_len del_rate i indel s1

/-- The insertion candidate loop of `get_indel`, including the skip condition
(`if self.read_len - del_len - ins_len < i+1: continue`, with `ins_len`
still 0 at every check since it is only assigned just before `break`);
the skip consumes no draw. -/
def ins_loop_A (read_len : ℕ) (ins_rate : List ℚ) (del_len : ℕ) :
    ℕ → List (ℕ × Char) → List RVal → Option (ℕ × List (ℕ × Char) × List RVal)
  | 0, indel, s => some (0, indel, s)
  | i+1, indel, s =>
    if (read_len : ℤ) - (del_len : ℤ) - 0 < (i : ℤ) + 1 then
      ins_loop_A read_len ins_rate del_len i indel s
    else
      match takeUnif s with
      | none => none
      | some (u, s1) =>
        if ins_rate.getD i 0 ≥ u then
          match place_ins read_len (i+1) indel s1 with
          | some (indel2, s2) => some (i+1, indel2, s2)
          | none => none
        else ins_loop_A read_len ins_rate del_len i indel s1

/-- `SeqRead.get_indel`: deletions first, then insertions constrained to
leave enough untouched positions.  Returns the indel map and the net length
change `ins_len - del_len`. -/
def get_indel (read_len : ℕ) (ins_rate del_rate : List ℚ) (s : List RVal) :
    Option (List (ℕ × Char) × ℤ × List RVal) :=
  match del_loop read_len del_rate del_rate.length [] s with
  | none => none
  | some (del_len, indel1, s1) =>
    match ins_loop_A read_len ins_rate del_len ins_rate.length indel1 s1 with
    | none => none
    | some (ins_len, indel2, s2) => some (indel2, (ins_len : ℤ) - (del_len : ℤ), s2)

/-- The insertion candidate loop of `get_indel_2` (no skip condition). -/
def ins_loop_B (read_len : ℕ) (ins_rate : List ℚ) :
    ℕ → List (ℕ × Char) → List RVal → Option (ℕ × List (ℕ × Char) × List RVal)
  | 0, indel, s => some (0, indel, s)
  | i+1, indel, s =>
    match takeUnif s with
    | none => none
    | some (u, s1) =>
      if ins_rate.getD i 0 ≥ u then
        match place_ins read_len (i+1) indel s1 with
        | some (indel2, s2) => some (i+1, indel2, s2)
        | none => none
      else ins_loop_B read_len ins_rate i indel s1

/-- The deletion candidate loop of `get_indel_2`: it first checks
`if del_len == ins_len: break` (with `del_len` carried along exactly as the
source variable, which is still 0 at every check), then the skip condition,
then the rate test; a success assigns `del_len = i+1` and breaks. -/
def del_loop_B (read_len : ℕ) (del_rate : List ℚ) (ins_len : ℕ) :
    ℕ → ℕ → List (ℕ × Char) → List RVal → Option (ℕ × List (ℕ × Char) × List RVal)
  | del_len, 0, indel, s => some (del_len, indel, s)
  | del_len, i+1, indel, s =>
    if del_len = ins_len then some (del_len, indel, s)
    else if (read_len : ℤ) - (del_len : ℤ) - (ins_len : ℤ) < (i : ℤ) + 1 then
      del_loop_B read_len del_rate ins_len del_len i indel s
    else
      match takeUnif s with
      | none => none
      | some (u, s1) =>
        if del_rate.getD i 0 ≥ u then
          match place_dels read_len (i+1) indel s1 with
          | some (indel2, s2) => some (i+1, indel2, s2)
          | none => none
        else del_loop_B read_len del_rate ins_len del_len i indel s1

/-- `SeqRead.get_indel_2`: the fallback generator — insertions first
(unconstrained), then deletions via `del_loop_B`.  Returns the indel map and
the net length change `ins_len - del_len`. -/
def get_indel_2 (read_len : ℕ) (ins_rate del_rate : List ℚ) (s : List RVal) :
    Option (List (ℕ × Char) × ℤ × List RVal) :=
  match ins_loop_B read_len ins_rate ins_rate.length [] s with
  | none => none
  | some (ins_len, indel1, s1) =>
    match del_loop_B read_len del_rate ins_len 0 del_rate.length indel1 s1 with
    | none => none
    | some (del_len, indel2, s2) => some (indel2, (ins_len : ℤ) - (del_len : ℤ), s2)

end SeqRead

/-- Well-formedness of an indel map: pairwise distinct keys, every key below
`read_len`, and every deletion key (value `'-'`) at least 1. -/
def indelOk (read_len : ℕ) (m : List (ℕ × Char)) : Prop :=
  (m.map Prod.fst).Nodup ∧ ∀ p ∈ m, p.1 < read_len ∧ (p.2 = '-' → 1 ≤ p.1)

theorem lookup_none_not_mem {m : List (ℕ × Char)} {k : ℕ} (h : m.lookup k = none) :
    k ∉ m.map Prod.fst := by
  rw [List.lookup_eq_none_iff] at h
  simp only [List.mem_map]
  rintro ⟨⟨a, b⟩, hab, rfl⟩
  simpa using h (a, b) hab

theorem indelOk_cons {read_len pos : ℕ} {v : Char} {m : List (ℕ × Char)}
    (hok : indelOk read_len m) (hfresh : m.lookup pos = none)
    (hlt : pos < read_len) (hdel : v = '-' → 1 ≤ pos) :
    indelOk read_len ((pos, v) :: m) := by
  refine ⟨List.Nodup.cons (lookup_none_not_mem hfresh) hok.1, ?_⟩
  intro p hp
  rcases List.mem_cons.mp hp with rfl | hp2
  · exact ⟨hlt, hdel⟩
  · exact hok.2 p hp2

theorem place_dels_ok (read_len : ℕ) :
    ∀ (s : List RVal) (n : ℕ) (indel m : List (ℕ × Char)) (s1 : List RVal),
      SeqRead.place_dels read_len n indel s = some (m, s1) →
      indelOk read_len indel → indelOk read_len m := by
  intro s
  induction s with
  | nil =>
    intro n indel m s1 h hok
    cases n with
    | zero => simp [SeqRead.place_dels] at h; rw [← h.1]; exact hok
    | succ n => simp [SeqRead.place_dels] at h
  | cons a t ih =>
    intro n indel m s1 h hok
    cases n with
    | zero => simp [SeqRead.place_dels] at h; rw [← h.1]; exact hok
    | succ n =>
      cases a with
      | unif q => simp [SeqRead.place_dels] at h
      | rint r =>
        rw [SeqRead.place_dels] at h
        by_cases hrl : 0 < read_len
        · rw [if_pos hrl] at h
          by_cases h0 : r % read_len = 0
          · rw [if_pos h0] at h; exact ih _ _ _ _ h hok
          · rw [if_neg h0] at h
            by_cases hsome : (indel.lookup (r % read_len)).isSome
            · rw [if_pos hsome] at h; exact ih _ _ _ _ h hok
            · rw [if_neg hsome] at h
              exact ih _ _ _ _ h
                (indelOk_cons hok (Option.not_isSome_iff_eq_none.mp hsome)
                  (Nat.mod_lt _ hrl) (fun _ => Nat.one_le_iff_ne_zero.mpr h0))
        · rw [if_neg hrl] at h; simp at h

theorem all_subs_getD_ne_dash (x : ℕ) : EmpDist.ALL_SUBS.getD x 'A' ≠ '-' := by
  by_cases h4 : x < 4
  · interval_cases x <;> decide
  · rw [List.getD_eq_default _ _ (by simpa [EmpDist.ALL_SUBS] using Nat.le_of_not_lt h4)]
    decide

theorem place_ins_ok (read_len : ℕ) (n : ℕ) (indel : List (ℕ × Char)) (s : List RVal) :
    ∀ m s1, SeqRead.place_ins read_len n indel s = some (m, s1) →
      indelOk read_len indel → indelOk read_len m := by
  induction n, indel, s using SeqRead.place_ins.induct read_len with
  | case1 indel s =>
    intro m s1 h hok
    simp [SeqRead.place_ins] at h; rw [← h.1]; exact hok
  | case2 n indel r s1 hrl hsome ih =>
    intro m s2 h hok
    cases s1 with
    | nil =>
      rw [SeqRead.place_ins, if_pos hrl, if_pos hsome] at h
      · exact ih _ _ h hok
      · simp
    | cons a t =>
      cases a with
      | unif q =>
        rw [SeqRead.place_ins, if_pos hrl, if_pos hsome] at h
        · exact ih _ _ h hok
        · simp
      | rint rb =>
        rw [SeqRead.place_ins, if_pos hrl, if_pos hsome] at h
        exact ih _ _ h hok
  | case3 n indel r hrl hsome rb rest ih =>
    intro m s2 h hok
    rw [SeqRead.place_ins, if_pos hrl, if_neg hsome] at h
    exact ih _ _ h
      (indelOk_cons hok (Option.not_isSome_iff_eq_none.mp hsome)
        (Nat.mod_lt _ hrl) (fun hv => absurd hv (all_subs_getD_ne_dash (rb % 4))))
  | case4 n indel r s1 hrl hsome hshape =>
    intro m s2 h hok
    cases s1 with
    | nil =>
      rw [SeqRead.place_ins, if_pos hrl, if_neg hsome] at h
      · simp at h
      · simp
    | cons a t =>
      cases a with
      | unif q =>
        rw [SeqRead.place_ins, if_pos hrl, if_neg hsome] at h
        · simp at h
        · simp
      | rint rb => exact absurd rfl (hshape rb t)
  | case5 n indel r s1 hrl =>
    intro m s2 h hok
    cases s1 with
    | nil =>
      rw [SeqRead.place_ins, if_neg hrl] at h
      · simp at h
      · simp
    | cons a t =>
      cases a with
      | unif q =>
        rw [SeqRead.place_ins, if_neg hrl] at h
        · simp at h
        · simp
      | rint rb => rw [SeqRead.place_ins, if_neg hrl] at h; simp at h
  | case6 t n x hshape =>
    intro m s2 h hok
    cases t with
    | nil => simp [SeqRead.place_ins] at h
    | cons a u =>
      cases a with
      | unif q => simp [SeqRead.place_ins] at h
      | rint r => exact absurd rfl (hshape r u)

theorem del_loop_ok (read_len : ℕ) (del_rate : List ℚ) :
    ∀ (i : ℕ) (indel : List (ℕ × Char)) (s : List RVal) (dl : ℕ)
      (m : List (ℕ × Char)) (s1 : List RVal),
      SeqRead.del_loop read_len del_rate i indel s = some (dl, m, s1) →
      indelOk read_len indel → indelOk read_len m := by
  intro i
  induction i with
  | zero =>
    intro indel s dl m s1 h hok
    simp [SeqRead.del_loop] at h
    rw [← h.2.1]; exact hok
  | succ i ih =>
    intro indel s dl m s1 h hok
    rw [SeqRead.del_loop] at h
    split at h
    · simp at h
    · next u s2 htu =>
      split at h
      · split at h
        · next indel2 s3 hpd =>
          simp only [Option.some.injEq, Prod.mk.injEq] at h
          rw [← h.2.1]
          exact place_dels_ok read_len s2 (i+1) indel indel2 s3 hpd hok
        · simp at h
      · exact ih _ _ _ _ _ h hok

theorem ins_loop_A_ok (read_len : ℕ) (ins_rate : List ℚ) (del_len : ℕ) :
    ∀ (i : ℕ) (indel : List (ℕ × Char)) (s : List RVal) (il : ℕ)
      (m : List (ℕ × Char)) (s1 : List RVal),
      SeqRead.ins_loop_A read_len ins_rate del_len i indel s = some (il, m, s1) →
      indelOk read_len indel → indelOk read_len m := by
  intro i
  induction i with
  | zero =>
    intro indel s il m s1 h hok
    simp [SeqRead.ins_loop_A] at h
    rw [← h.2.1]; exact hok
  | succ i ih =>
    intro indel s il m s1 h hok
    rw [SeqRead.ins_loop_A] at h
    split at h
    · exact ih _ _ _ _ _ h hok
    · split at h
      · simp at h
      · next u s2 htu =>
        split at h
        · split at h
          · next indel2 s3 hpi =>
            simp only [Option.some.injEq, Prod.mk.injEq] at h
            rw [← h.2.1]
            exact place_ins_ok read_len (i+1) indel s2 indel2 s3 hpi hok
          · simp at h
        · exact ih _ _ _ _ _ h hok

theorem ins_loop_B_ok (read_len : ℕ) (ins_rate : List ℚ) :
    ∀ (i : ℕ) (indel : List (ℕ × Char)) (s : List RVal) (il : ℕ)
      (m : List (ℕ × Char)) (s1 : List RVal),
      SeqRead.ins_loop_B read_len ins_rate i indel s = some (il, m, s1) →
      indelOk read_len indel → indelOk read_len m := by
  intro i
  induction i with
  | zero =>
    intro indel s il m s1 h hok
    simp [SeqRead.ins_loop_B] at h
    rw [← h.2.1]; exact hok
  | succ i ih =>
    intro indel s il m s1 h hok
    rw [SeqRead.ins_loop_B] at h
    split at h
    · simp at h
    · next u s2 htu =>
      split at h
      · split at h
        · next indel2 s3 hpi =>
          simp only [Option.some.injEq, Prod.mk.injEq] at h
          rw [← h.2.1]
          exact place_ins_ok read_len (i+1) indel s2 indel2 s3 hpi hok
        · simp at h
      · exact ih _ _ _ _ _ h hok

theorem del_loop_B_ok (read_len : ℕ) (del_rate : List ℚ) (ins_len : ℕ) :
    ∀ (i del_len : ℕ) (indel : List (ℕ × Char)) (s : List RVal) (dl : ℕ)
      (m : List (ℕ × Char)) (s1 : List RVal),
      SeqRead.del_loop_B read_len del_rate ins_len del_len i indel s = some (dl, m, s1) →
      indelOk read_len indel → indelOk read_len m := by
  intro i
  induction i with
  | zero =>
    intro del_len indel s dl m s1 h hok
    simp [SeqRead.del_loop_B] at h
    rw [← h.2.1]; exact hok
  | succ i ih =>
    intro del_len indel s dl m s1 h hok
    rw [SeqRead.del_loop_B] at h
    split at h
    · simp only [Option.some.injEq, Prod.mk.injEq] at h
      rw [← h.2.1]; exact hok
    · split at h
      · exact ih _ _ _ _ _ _ h hok
      · split at h
        · simp at h
        · next u s2 htu =>
          split at h
          · split at h
            · next indel2 s3 hpd =>
              simp only [Option.some.injEq, Prod.mk.injEq] at h
              rw [← h.2.1]
              exact place_dels_ok read_len s2 (i+1) indel indel2 s3 hpd hok
            · simp at h
          · exact ih _ _ _ _ _ _ h hok

/-- C7: every indel map produced by `SeqRead.get_indel` or
`SeqRead.get_indel_2` (over any read length, rate curves and random stream)
has pairwise-distinct keys; every deletion key (`'-'`) lies in
`[1, read_len)` and every insertion key in `[0, read_len)`. -/
theorem indel_map_wellformed (read_len : ℕ) (ins_rate del_rate : List ℚ) (s : List RVal) :
    (∀ m slen s1, SeqRead.get_indel read_len ins_rate del_rate s = some (m, slen, s1) →
      (m.map Prod.fst).Nodup ∧
        ∀ p ∈ m, p.1 < read_len ∧ (p.2 = '-' → 1 ≤ p.1)) ∧
    (∀ m slen s1, SeqRead.get_indel_2 read_len ins_rate del_rate s = some (m, slen, s1) →
      (m.map Prod.fst).Nodup ∧
        ∀ p ∈ m, p.1 < read_len ∧ (p.2 = '-' → 1 ≤ p.1)) := by
  have hnil : indelOk read_len [] := ⟨List.nodup_nil, by simp⟩
  constructor
  · intro m slen s1 h
    rw [SeqRead.get_indel] at h
    split at h
    · simp at h
    · next del_len indel1 s2 hdl =>
      split at h
      · simp at h
      · next ins_len indel2 s3 hil =>
        simp only [Option.some.injEq, Prod.mk.injEq] at h
        rw [← h.1]
        exact ins_loop_A_ok read_len ins_rate del_len ins_rate.length indel1 s2
          ins_len indel2 s3 hil
          (del_loop_ok read_len del_rate del_rate.length [] s del_len indel1 s2 hdl hnil)
  · intro m slen s1 h
    rw [SeqRead.get_indel_2] at h
    split at h
    · simp at h
    · next ins_len indel1 s2 hil =>
      split at h
      · simp at h
      · next del_len indel2 s3 hdl =>
        simp only [Option.some.injEq, Prod.mk.injEq] at h
        rw [← h.1]
        exact del_loop_B_ok read_len del_rate ins_len del_rate.length 0 indel1 s2
          del_len indel2 s3 hdl
          (ins_loop_B_ok read_len ins_rate ins_rate.length [] s ins_len indel1 s2 hil hnil)

/-- Witness for C7: a concrete run of `SeqRead.get_indel` (read length 3,
one-deletion outcome) whose resulting map `[(1, '-')]` is checked against the
well-formedness property. -/
theorem indel_map_wellformed_witness :
    (([((1 : ℕ), '-')].map Prod.fst).Nodup ∧
      ∀ p ∈ [((1 : ℕ), '-')], p.1 < 3 ∧ (p.2 = '-' → 1 ≤ p.1)) :=
  (indel_map_wellformed 3 [mkRat 1 2] [mkRat 1 2]
      [RVal.unif (mkRat 1 5), RVal.rint 1, RVal.unif (mkRat 4 5)]).1
    [(1, '-')] (-1) [] (by decide)

/-- C1 (code-bug evidence): `SeqRead.get_indel_2` can return a negative net
length change, contradicting the comment above it in the source
("number of deletions <= number of insertions") and the spec.  With read
length 3 and rate curves of length 2, the stream below makes the insertion
loop place one insertion (at position 0) and the deletion loop then fires at
candidate index 1, setting `del_len = 2` — the `del_len == ins_len` break is
only checked before a candidate, never while one is being placed — so the
result is `ins_len - del_len = 1 - 2 = -1 < 0`. -/
theorem get_indel_2_returns_negative_delta :
    SeqRead.get_indel_2 3 [mkRat 1 2, mkRat 1 10] [mkRat 1 2, mkRat 2 5]
      [RVal.unif (mkRat 1 5), RVal.unif (mkRat 1 5), RVal.rint 0, RVal.rint 0,
       RVal.unif (mkRat 3 10), RVal.rint 1, RVal.rint 2]
      = some ([(2, '-'), (1, '-'), (0, 'A')], -1, []) ∧ ¬((0 : ℤ) ≤ -1) := by
  constructor <;> decide

namespace EmpDist

/-- `EmpDist.MAX_DIST_NUMBER` (1.0e6): the fixed total mass the cumulative
tables are rescaled to. -/
def MAX_DIST_NUMBER : ℕ := 1000000

/-- `EmpDist.N_SYMB`: the unknown-base symbol. -/
def N_SYMB : Char := 'N'

/-- `EmpDist._lookup_qcdf`: `qcdf[np.searchsorted(qcdf[:, 0], rv), 1]` — on a
table whose thresholds ascend (the profile format stores ascending values),
`searchsorted` (side left) is the first index whose threshold is `≥ rv`; when
the draw exceeds every threshold, `searchsorted` returns the table length and
the indexing raises `IndexError` (`none`). -/
def lookup_qcdf (qcdf : List (ℕ × ℤ)) (rv : ℕ) : Option ℤ :=
  match qcdf.find? (fun p => decide (rv ≤ p.1)) with
  | some p => some p.2
  | none => none

end EmpDist

/-- The batch `Art.RANDINT(1, MAX_DIST_NUMBER+1, size=n)` of
`EmpDist._get_from_dist`: `n` integer draws, each mapped into
`[1, 1_000_000]`. -/
def drawRandints (n : ℕ) (s : List RVal) : Option (List ℕ × List RVal) :=
  match n, s with
  | 0, s => some ([], s)
  | n+1, RVal.rint r :: s1 =>
    match drawRandints n s1 with
    | some (rs, s2) => some ((1 + r % EmpDist.MAX_DIST_NUMBER) :: rs, s2)
    | none => none
  | _+1, _ => none

/-- The batch `Art.UNIFORM(size=n)` of `parse_error`: `n` uniform draws. -/
def drawUniforms (n : ℕ) (s : List RVal) : Option (List ℚ × List RVal) :=
  match n, s with
  | 0, s => some ([], s)
  | n+1, RVal.unif u :: s1 =>
    match drawUniforms n s1 with
    | some (us, s2) => some (u :: us, s2)
    | none => none
  | _+1, _ => none

namespace EmpDist

/-- The list comprehension `[qi for qi in imap(EmpDist._lookup_qcdf,
qual_dist_for_symb, rv_list)]`: pairwise lookups, stopping at the shorter of
the two sequences; a lookup `IndexError` propagates (`none`). -/
def lookup_all : List (List (ℕ × ℤ)) → List ℕ → Option (List ℤ)
  | _, [] => some []
  | [], _ :: _ => some []
  | t :: ts, rv :: rvs =>
    match lookup_qcdf t rv with
    | none => none
    | some v =>
      match lookup_all ts rvs with
      | none => none
      | some vs => some (v :: vs)

/-- `EmpDist._get_from_dist`: draw `read_len` integers in `[1, 1e6]`, look
each up in the positional tables (`imap` pairs them, stopping at the shorter
sequence), and run the two asserts (`len(quals) > 0`,
`len(quals) == read_len`); an assert failure is `none`. -/
def _get_from_dist (qual_dist : List (List (ℕ × ℤ))) (read_len : ℕ) (s : List RVal) :
    Option (List ℤ × List RVal) :=
  match drawRandints read_len s with
  | none => none
  | some (rvs, s1) =>
    match lookup_all qual_dist rvs with
    | none => none
    | some quals =>
      if 0 < quals.length then
        if quals.length = read_len then some (quals, s1) else none
      else none

/-- The parsed pair of per-mate positional cumulative tables (combined-symbol
mode): `qual_dist_first['.']` and `qual_dist_second['.']`; in combined mode
`dist_max` is their lengths. -/
structure Tables where
  first : List (List (ℕ × ℤ))
  second : List (List (ℕ × ℤ))
deriving DecidableEq, Repr

/-- `EmpDist.get_read_qual`: `verify_length` (an `assert`, so `none` on
failure) then `_get_from_dist` on the requested mate's combined table. -/
def get_read_qual (emp : Tables) (read_len : ℕ) (is_first : Bool) (s : List RVal) :
    Option (List ℤ × List RVal) :=
  if is_first then
    if read_len ≤ emp.first.length then _get_from_dist emp.first read_len s else none
  else
    if read_len ≤ emp.second.length then _get_from_dist emp.second read_len s else none

end EmpDist

/-- Integer power by literal recursion (kernel-evaluable; equals `a ^ n`,
see `ipow_eq_pow`). -/
def ipow (a : ℤ) : ℕ → ℤ
  | 0 => 1
  | n+1 => ipow a n * a

theorem ipow_eq_pow (a : ℤ) (n : ℕ) : ipow a n = a ^ n := by
  induction n with
  | zero => rfl
  | succ n ih => rw [ipow, ih, pow_succ]

/-- The substitution test `rvals[i] < EmpDist.PROB_ERR[quals[i]]` where
`PROB_ERR[q] = 10.0**(-q*0.1)`: for a rational draw `u` the real inequality
`u < 10^(-q/10)` holds iff `u < 0`, or `u.num^10 * 10^q < u.den^10` — a
decidable integer test; the equivalence with the real-power formulation is
proved in `errHit_iff_rpow`. -/
def errHit (u : ℚ) (q : ℕ) : Bool :=
  decide (u < 0) || decide (ipow u.num 10 * ipow 10 q < ipow (u.den : ℤ) 10)

/-- Python indexing of the 80-entry `EmpDist.PROB_ERR` list: indices `0..79`
directly, `-80..-1` wrap around, anything else raises `IndexError`. -/
def probErrIndex (q : ℤ) : Option ℕ :=
  if 0 ≤ q ∧ q < 80 then some q.toNat
  else if -80 ≤ q ∧ q < 0 then some (q + 80).toNat
  else none

/-- The loop of `parse_error` over positions, after the batch of uniform
draws `rvals` has been taken: an `N` base forces its quality to 1 and is
skipped; otherwise the substitution test decides whether the base is
replaced via `Art.random_base(seq_read[i])` (which consumes one more integer
draw).  A sequence shorter than the quality vector raises `IndexError`
(`none`); trailing sequence positions beyond the quality vector are left
untouched. -/
def parse_error_go (rvals : List ℚ) (quals : List ℤ) (seq : List Char) (s : List RVal) :
    Option (List ℤ × List Char × List RVal) :=
  match rvals, quals, seq with
  | [], [], seq => some ([], seq, s)
  | rv :: rvt, q :: qt, c :: ct =>
    if c = EmpDist.N_SYMB then
      match parse_error_go rvt qt ct s with
      | some (qs, cs, s1) => some (1 :: qs, c :: cs, s1)
      | none => none
    else
      match probErrIndex q with
      | none => none
      | some qi =>
        if errHit rv qi then
          match Art.random_base (some c) s with
          | some (b, s1) =>
            match parse_error_go rvt qt ct s1 with
            | some (qs, cs, s2) => some (q :: qs, b :: cs, s2)
            | none => none
          | none => none
        else
          match parse_error_go rvt qt ct s with
          | some (qs, cs, s1) => some (q :: qs, c :: cs, s1)
          | none => none
  | _, _, _ => none

/-- `parse_error(quals, seq_read)`: draw `len(quals)` uniforms up front
(`rvals = Art.UNIFORM(size=num_seq)`), then run the per-position loop.
Returns the mutated quality vector and sequence. -/
def parse_error (quals : List ℤ) (seq : List Char) (s : List RVal) :
    Option (List ℤ × List Char × List RVal) :=
  match drawUniforms quals.length s with
  | none => none
  | some (rvals, s1) => parse_error_go rvals quals seq s1

/-- The decidable integer test `errHit` is exactly the source's float
comparison `u < 10.0**(-q*0.1)` read over the reals. -/
theorem errHit_iff_rpow (u : ℚ) (q : ℕ) :
    errHit u q = true ↔ (u : ℝ) < (10 : ℝ) ^ (-(q : ℝ) / 10) := by
  have h10 : (0:ℝ) < 10 := by norm_num
  have hy : (0:ℝ) < (10 : ℝ) ^ (-(q : ℝ) / 10) := Real.rpow_pos_of_pos h10 _
  unfold errHit
  simp only [Bool.or_eq_true, decide_eq_true_eq, ipow_eq_pow]
  rcases lt_or_le u 0 with hu | hu
  · constructor
    · intro _
      calc (u : ℝ) < 0 := by exact_mod_cast hu
        _ < _ := hy
    · intro _; exact Or.inl hu
  · have hunn : (0:ℝ) ≤ (u : ℝ) := by exact_mod_cast hu
    have hkey : ((u : ℝ) < (10 : ℝ) ^ (-(q : ℝ) / 10)) ↔
        (u:ℝ) ^ (10:ℕ) < ((10 : ℝ) ^ (-(q : ℝ) / 10)) ^ (10:ℕ) :=
      (pow_lt_pow_iff_left₀ hunn hy.le (by norm_num)).symm
    have hyten : ((10 : ℝ) ^ (-(q : ℝ) / 10)) ^ (10:ℕ) = ((10:ℝ) ^ (q:ℕ))⁻¹ := by
      rw [← Real.rpow_natCast ((10 : ℝ) ^ (-(q : ℝ) / 10)) 10, ← Real.rpow_mul h10.le]
      norm_num
      rw [Real.rpow_neg h10.le, Real.rpow_natCast]
    have hcast : (u : ℝ) = ((u.num : ℝ)) / ((u.den : ℝ)) := by
      rw [Rat.cast_def]
    constructor
    · rintro (hlt | hint)
      · exact absurd hlt (not_lt.mpr hu)
      · rw [hkey, hyten, hcast, div_pow, div_lt_iff₀ (by positivity), inv_mul_eq_div,
          lt_div_iff₀ (by positivity)]
        calc ((u.num:ℝ)) ^ (10:ℕ) * (10:ℝ) ^ (q:ℕ)
            = (((u.num ^ 10 * 10 ^ q : ℤ) : ℝ)) := by push_cast; ring
          _ < (((u.den:ℤ) ^ 10 : ℤ) : ℝ) := by exact_mod_cast hint
          _ = ((u.den:ℝ)) ^ (10:ℕ) := by push_cast; ring
    · intro hlt
      right
      rw [hkey, hyten, hcast, div_pow, div_lt_iff₀ (by positivity), inv_mul_eq_div,
        lt_div_iff₀ (by positivity)] at hlt
      have hfin : (((u.num ^ 10 * 10 ^ q : ℤ) : ℝ)) < (((u.den:ℤ) ^ 10 : ℤ) : ℝ) := by
        calc (((u.num ^ 10 * 10 ^ q : ℤ) : ℝ))
            = ((u.num:ℝ)) ^ (10:ℕ) * (10:ℝ) ^ (q:ℕ) := by push_cast; ring
          _ < ((u.den:ℝ)) ^ (10:ℕ) := hlt
          _ = (((u.den:ℤ) ^ 10 : ℤ) : ℝ) := by push_cast; ring
      exact_mod_cast hfin

/-- C10: `parse_error` on a sequence containing the IUPAC ambiguity letter
`R` (not the unknown-base symbol `N`, not a primary base) raises `KeyError`
when the drawn uniform falls below the position's error probability: with
quality 0 the error probability is `10^0 = 1`, the draw `1/2` is below it,
and `EmpDist.KO_SUBS_LOOKUP` has no entry for `R`, so the substitution lookup
fails (`none` models the unhandled `KeyError`). -/
theorem parse_error_keyerror_on_iupac :
    EmpDist.KO_SUBS_LOOKUP 'R' = none ∧
    errHit (mkRat 1 2) 0 = true ∧
    parse_error [0] ['R'] [RVal.unif (mkRat 1 2)] = none := by
  refine ⟨rfl, by decide, by decide⟩

theorem drawRandints_append (rs : List ℕ) (rest : List RVal) :
    drawRandints rs.length (rs.map RVal.rint ++ rest) =
      some (rs.map (fun r => 1 + r % EmpDist.MAX_DIST_NUMBER), rest) := by
  induction rs with
  | nil => rfl
  | cons r rt ih => simp [drawRandints, ih]

theorem drawUniforms_append (us : List ℚ) (rest : List RVal) :
    drawUniforms us.length (us.map RVal.unif ++ rest) = some (us, rest) := by
  induction us with
  | nil => rfl
  | cons u ut ih => simp [drawUniforms, ih]

theorem lookup_qcdf_spec (t : List (ℕ × ℤ)) (rv : ℕ)
    (hfull : ∃ p ∈ t, rv ≤ p.1) :
    ∃ v, EmpDist.lookup_qcdf t rv = some v ∧ ∃ p ∈ t, v = p.2 := by
  unfold EmpDist.lookup_qcdf
  obtain ⟨p, hp, hrv⟩ := hfull
  have hsome : (t.find? (fun p => decide (rv ≤ p.1))).isSome := by
    apply List.find?_isSome.mpr
    exact ⟨p, hp, by simpa using hrv⟩
  obtain ⟨q, hq⟩ := Option.isSome_iff_exists.mp hsome
  rw [hq]
  exact ⟨q.2, rfl, q, List.mem_of_find?_eq_some hq, rfl⟩

theorem lookup_all_spec :
    ∀ (ts : List (List (ℕ × ℤ))) (rvs : List ℕ),
      rvs.length ≤ ts.length →
      (∀ t ∈ ts, ∃ p ∈ t, EmpDist.MAX_DIST_NUMBER ≤ p.1) →
      (∀ rv ∈ rvs, rv ≤ EmpDist.MAX_DIST_NUMBER) →
      ∃ vs, EmpDist.lookup_all ts rvs = some vs ∧ vs.length = rvs.length ∧
        ∀ v ∈ vs, ∃ t ∈ ts, ∃ p ∈ t, v = p.2 := by
  intro ts
  induction ts with
  | nil =>
    intro rvs hle _ _
    cases rvs with
    | nil => exact ⟨[], rfl, rfl, by simp⟩
    | cons rv rvt => simp at hle
  | cons t tt ih =>
    intro rvs hle hfull hrv
    cases rvs with
    | nil => exact ⟨[], rfl, rfl, by simp⟩
    | cons rv rvt =>
      have h1 : ∃ p ∈ t, rv ≤ p.1 := by
        obtain ⟨p, hp, hth⟩ := hfull t (List.mem_cons_self t tt)
        exact ⟨p, hp, le_trans (hrv rv (List.mem_cons_self rv rvt)) hth⟩
      obtain ⟨v, hv, p, hpmem, hvp⟩ := lookup_qcdf_spec t rv h1
      obtain ⟨vs, hvs, hlen, hmem⟩ := ih rvt (by simpa using Nat.le_of_succ_le_succ hle)
        (fun u hu => hfull u (List.mem_cons_of_mem t hu))
        (fun u hu => hrv u (List.mem_cons_of_mem rv hu))
      refine ⟨v :: vs, ?_, by simp [hlen], ?_⟩
      · rw [EmpDist.lookup_all, hv, hvs]
      · intro w hw
        rcases List.mem_cons.mp hw with rfl | hw2
        · exact ⟨t, List.mem_cons_self t tt, p, hpmem, hvp⟩
        · obtain ⟨t2, ht2, p2, hp2, hw2⟩ := hmem w hw2
          exact ⟨t2, List.mem_cons_of_mem t ht2, p2, hp2, hw2⟩

/-- C5 counterexample: the claim covers every `read_length ≤` the profile
maximum, but at `read_length = 0` (which satisfies `0 ≤ dist_max`) the
source's own `assert len(quals) > 0` in `_get_from_dist` fails
(`AssertionError`, modelled as `none`) instead of returning an empty score
vector. -/
theorem get_read_qual_zero_length_fails :
    EmpDist.get_read_qual ⟨[[(1000000, 40)]], []⟩ 0 true [] = none ∧
      0 ≤ (EmpDist.Tables.mk [[(1000000, 40)]] []).first.length := by
  constructor <;> decide

/-- C5 (amended): for every `1 ≤ read_length ≤` the requested mate's
table count, on a well-formed profile (each positional table reaches the full
mass `1e6`, every stored quality in `[0, 79]`), `EmpDist.get_read_qual`
consumes exactly `read_length` integer draws (each mapped into
`[1, 1_000_000]`) and returns exactly `read_length` scores, each a table
value in `[0, 79]`; each score is the table value at the first cumulative
threshold `≥` the draw (`EmpDist.lookup_qcdf`). -/
theorem get_read_qual_spec (emp : EmpDist.Tables) (read_len : ℕ) (is_first : Bool)
    (rs : List ℕ) (srest : List RVal)
    (hlen : rs.length = read_len)
    (h1 : 1 ≤ read_len)
    (hmax : read_len ≤ (if is_first then emp.first else emp.second).length)
    (hfull : ∀ t ∈ (if is_first then emp.first else emp.second),
      ∃ p ∈ t, EmpDist.MAX_DIST_NUMBER ≤ p.1)
    (hval : ∀ t ∈ (if is_first then emp.first else emp.second),
      ∀ p ∈ t, 0 ≤ p.2 ∧ p.2 ≤ 79) :
    ∃ quals,
      EmpDist.get_read_qual emp read_len is_first (rs.map RVal.rint ++ srest)
        = some (quals, srest) ∧
      quals.length = read_len ∧
      ∀ v ∈ quals, 0 ≤ v ∧ v ≤ 79 := by
  have hcore : ∀ (tabs : List (List (ℕ × ℤ))),
      read_len ≤ tabs.length →
      (∀ t ∈ tabs, ∃ p ∈ t, EmpDist.MAX_DIST_NUMBER ≤ p.1) →
      (∀ t ∈ tabs, ∀ p ∈ t, 0 ≤ p.2 ∧ p.2 ≤ 79) →
      ∃ quals,
        EmpDist._get_from_dist tabs read_len (rs.map RVal.rint ++ srest)
          = some (quals, srest) ∧
        quals.length = read_len ∧ ∀ v ∈ quals, 0 ≤ v ∧ v ≤ 79 := by
    intro tabs hm hf hv
    have hrvs : ∀ rv ∈ rs.map (fun r => 1 + r % EmpDist.MAX_DIST_NUMBER),
        rv ≤ EmpDist.MAX_DIST_NUMBER := by
      intro rv hrv
      obtain ⟨r, _, rfl⟩ := List.mem_map.mp hrv
      have : r % EmpDist.MAX_DIST_NUMBER < EmpDist.MAX_DIST_NUMBER :=
        Nat.mod_lt _ (by norm_num [EmpDist.MAX_DIST_NUMBER])
      omega
    obtain ⟨vs, hvs, hvslen, hvsmem⟩ := lookup_all_spec tabs
      (rs.map (fun r => 1 + r % EmpDist.MAX_DIST_NUMBER))
      (by simpa [hlen] using hm) hf hrvs
    refine ⟨vs, ?_, ?_, ?_⟩
    · rw [EmpDist._get_from_dist, ← hlen, drawRandints_append]
      simp only [hvs]
      have hl : vs.length = rs.length := by simpa using hvslen
      rw [if_pos (by omega), if_pos hl]
    · simpa [hlen] using hvslen
    · intro v hvm
      obtain ⟨t, ht, p, hp, rfl⟩ := hvsmem v hvm
      exact hv t ht p hp
  cases is_first with
  | true =>
    obtain ⟨quals, hq, hl, hr⟩ := hcore emp.first (by simpa using hmax)
      (by simpa using hfull) (by simpa using hval)
    refine ⟨quals, ?_, hl, hr⟩
    rw [EmpDist.get_read_qual, if_pos rfl, if_pos (by simpa using hmax)]
    exact hq
  | false =>
    obtain ⟨quals, hq, hl, hr⟩ := hcore emp.second (by simpa using hmax)
      (by simpa using hfull) (by simpa using hval)
    refine ⟨quals, ?_, hl, hr⟩
    rw [EmpDist.get_read_qual, if_neg (by simp), if_pos (by simpa using hmax)]
    exact hq

/-- Witness for the amended C5 theorem: a one-position profile with value 40
at full mass, read length 1, one integer draw. -/
theorem get_read_qual_spec_witness :
    ∃ quals,
      EmpDist.get_read_qual ⟨[[(1000000, 40)]], []⟩ 1 true [RVal.rint 5]
        = some (quals, []) ∧
      quals.length = 1 ∧
      ∀ v ∈ quals, 0 ≤ v ∧ v ≤ 79 :=
  get_read_qual_spec ⟨[[(1000000, 40)]], []⟩ 1 true [5] []
    (by decide) (by decide) (by decide)
    (by intro t ht; simp at ht; exact ⟨(1000000, 40), by simp [ht, EmpDist.MAX_DIST_NUMBER]⟩)
    (by intro t ht p hp; simp at ht; rw [ht] at hp; simp at hp; simp [hp])

theorem probErrIndex_of_range (q : ℤ) (h0 : 0 ≤ q) (h80 : q < 80) :
    probErrIndex q = some q.toNat := by
  unfold probErrIndex
  rw [if_pos ⟨h0, h80⟩]

theorem random_base_excl (c : Char) (hc : c ∈ ['A', 'C', 'G', 'T']) (s : List RVal)
    (b : Char) (s1 : List RVal) (h : Art.random_base (some c) s = some (b, s1)) :
    b ∈ ['A', 'C', 'G', 'T'] ∧ b ≠ c := by
  fin_cases hc <;>
  · cases s with
    | nil => simp [Art.random_base, takeRandint, NULC, EmpDist.KO_SUBS_LOOKUP] at h
    | cons a t =>
      cases a with
      | unif q => simp [Art.random_base, takeRandint, NULC, EmpDist.KO_SUBS_LOOKUP] at h
      | rint r =>
        simp [Art.random_base, EmpDist.KO_SUBS_LOOKUP, takeRandint, NULC] at h
        obtain ⟨hb, -⟩ := h
        have h3 : r % 3 = 0 ∨ r % 3 = 1 ∨ r % 3 = 2 := by omega
        rcases h3 with h3 | h3 | h3 <;> rw [h3] at hb <;> rw [← hb] <;> decide

theorem parse_error_go_spec :
    ∀ (us : List ℚ) (quals : List ℤ) (seq : List Char) (s : List RVal)
      (quals2 : List ℤ) (seq2 : List Char) (s1 : List RVal),
      parse_error_go us quals seq s = some (quals2, seq2, s1) →
      (∀ q ∈ quals, 0 ≤ q ∧ q < 80) →
      (∀ c ∈ seq, c = 'N' ∨ c ∈ ['A', 'C', 'G', 'T']) →
      quals2.length = quals.length ∧ seq2.length = seq.length ∧
      ∀ (i : ℕ) (u : ℚ) (q : ℤ) (c : Char),
        us[i]? = some u → quals[i]? = some q → seq[i]? = some c →
        (c = 'N' → quals2[i]? = some 1 ∧ seq2[i]? = some c) ∧
        (c ≠ 'N' → quals2[i]? = some q ∧
          (errHit u q.toNat = false → seq2[i]? = some c) ∧
          (errHit u q.toNat = true →
            ∃ b, seq2[i]? = some b ∧ b ≠ c ∧ b ∈ ['A', 'C', 'G', 'T'])) := by
  intro us
  induction us with
  | nil =>
    intro quals seq s quals2 seq2 s1 h hq hc
    cases quals with
    | cons q qt => simp [parse_error_go] at h
    | nil =>
      rw [parse_error_go] at h
      simp only [Option.some.injEq, Prod.mk.injEq] at h
      obtain ⟨h1, h2, -⟩ := h
      exact ⟨by rw [← h1], by rw [← h2], by intro i u q c hu; simp at hu⟩

  | cons rv rvt ih =>
    intro quals seq s quals2 seq2 s1 h hq hc
    cases quals with
    | nil => simp [parse_error_go] at h
    | cons q qt =>
      cases seq with
      | nil => simp [parse_error_go] at h
      | cons c ct =>
        have hq0 : 0 ≤ q ∧ q < 80 := hq q (List.mem_cons_self q qt)
        have hqt : ∀ x ∈ qt, 0 ≤ x ∧ x < 80 := fun x hx => hq x (List.mem_cons_of_mem q hx)
        have hct : ∀ x ∈ ct, x = 'N' ∨ x ∈ ['A', 'C', 'G', 'T'] :=
          fun x hx => hc x (List.mem_cons_of_mem c hx)
        rw [parse_error_go] at h
        by_cases hcN : c = EmpDist.N_SYMB
        · rw [if_pos hcN] at h
          split at h
          · next qs cs s2 hrec =>
            simp only [Option.some.injEq, Prod.mk.injEq] at h
            obtain ⟨h1, h2, h3⟩ := h
            obtain ⟨ihl, ihsl, ihp⟩ := ih qt ct s qs cs s2 hrec hqt hct
            refine ⟨by rw [← h1]; simp [ihl], by rw [← h2]; simp [ihsl], ?_⟩
            intro i u q1 c1 hu hq1 hc1
            cases i with
            | zero =>
              simp only [List.getElem?_cons_zero, Option.some.injEq] at hu hq1 hc1
              subst hu; subst hq1; subst hc1
              constructor
              · intro _
                rw [← h1, ← h2]
                simp
              · intro hne
                exact absurd hcN hne
            | succ j =>
              simp only [List.getElem?_cons_succ] at hu hq1 hc1
              rw [← h1, ← h2]
              simpa using ihp j u q1 c1 hu hq1 hc1
          · simp at h
        · rw [if_neg hcN] at h
          simp only [probErrIndex_of_range q hq0.1 hq0.2] at h
          by_cases hhit : errHit rv q.toNat = true
          · rw [if_pos hhit] at h
            cases hrb : Art.random_base (some c) s with
            | none => simp [hrb] at h
            | some p =>
              obtain ⟨b, s2⟩ := p
              simp only [hrb] at h
              cases hrec : parse_error_go rvt qt ct s2 with
              | none => simp [hrec] at h
              | some triple =>
                obtain ⟨qs, cs, s3⟩ := triple
                simp only [hrec] at h
                simp only [Option.some.injEq, Prod.mk.injEq] at h
                obtain ⟨h1, h2, h3⟩ := h
                obtain ⟨ihl, ihsl, ihp⟩ := ih qt ct s2 qs cs s3 hrec hqt hct
                have hcP : c ∈ ['A', 'C', 'G', 'T'] := by
                  rcases hc c (List.mem_cons_self c ct) with hcn | hcp
                  · exact absurd hcn hcN
                  · exact hcp
                obtain ⟨hbP, hbne⟩ := random_base_excl c hcP s b s2 hrb
                refine ⟨by rw [← h1]; simp [ihl], by rw [← h2]; simp [ihsl], ?_⟩
                intro i u q1 c1 hu hq1 hc1
                cases i with
                | zero =>
                  simp only [List.getElem?_cons_zero, Option.some.injEq] at hu hq1 hc1
                  subst hu; subst hq1; subst hc1
                  constructor
                  · intro hcn; exact absurd hcn hcN
                  · intro _
                    rw [← h1, ← h2]
                    refine ⟨by simp, ?_, ?_⟩
                    · intro hfalse
                      rw [hhit] at hfalse
                      cases hfalse
                    · intro _
                      exact ⟨b, by simp, hbne, hbP⟩
                | succ j =>
                  simp only [List.getElem?_cons_succ] at hu hq1 hc1
                  rw [← h1, ← h2]
                  simpa using ihp j u q1 c1 hu hq1 hc1
          · rw [if_neg hhit] at h
            cases hrec : parse_error_go rvt qt ct s with
            | none => simp [hrec] at h
            | some triple =>
              obtain ⟨qs, cs, s2⟩ := triple
              simp only [hrec] at h
              simp only [Option.some.injEq, Prod.mk.injEq] at h
              obtain ⟨h1, h2, h3⟩ := h
              obtain ⟨ihl, ihsl, ihp⟩ := ih qt ct s qs cs s2 hrec hqt hct
              refine ⟨by rw [← h1]; simp [ihl], by rw [← h2]; simp [ihsl], ?_⟩
              intro i u q1 c1 hu hq1 hc1
              cases i with
              | zero =>
                simp only [List.getElem?_cons_zero, Option.some.injEq] at hu hq1 hc1
                subst hu; subst hq1; subst hc1
                constructor
                · intro hcn; exact absurd hcn hcN
                · intro _
                  rw [← h1, ← h2]
                  refine ⟨by simp, fun _ => by simp, ?_⟩
                  intro htrue
                  exact absurd htrue hhit
              | succ j =>
                simp only [List.getElem?_cons_succ] at hu hq1 hc1
                rw [← h1, ← h2]
                simpa using ihp j u q1 c1 hu hq1 hc1

/-- C6: for every position `i` of `parse_error` (qualities in `[0, 80)`,
sequence over the primary bases and `N`): if `sequence[i]` is `N` then
`qualities[i]` is forced to 1 and the base is unchanged; otherwise the
quality is unchanged and, when the position's uniform draw `u` satisfies
`u < 10^(-qualities[i]/10)`, the base is replaced by one of the three
primary bases other than `sequence[i]` (never equal to the original), while
when the draw is not below the threshold the base is unchanged. -/
theorem parse_error_pointwise (us : List ℚ) (quals : List ℤ) (seq : List Char)
    (srest : List RVal) (quals2 : List ℤ) (seq2 : List Char) (s1 : List RVal)
    (hlen : us.length = quals.length)
    (hq : ∀ q ∈ quals, 0 ≤ q ∧ q < 80)
    (hc : ∀ c ∈ seq, c = 'N' ∨ c ∈ ['A', 'C', 'G', 'T'])
    (h : parse_error quals seq (us.map RVal.unif ++ srest) = some (quals2, seq2, s1)) :
    quals2.length = quals.length ∧ seq2.length = seq.length ∧
    ∀ (i : ℕ) (u : ℚ) (q : ℤ) (c : Char),
      us[i]? = some u → quals[i]? = some q → seq[i]? = some c →
      (c = 'N' → quals2[i]? = some 1 ∧ seq2[i]? = some c) ∧
      (c ≠ 'N' → quals2[i]? = some q ∧
        (¬ ((u : ℝ) < (10 : ℝ) ^ (-(q : ℝ) / 10)) → seq2[i]? = some c) ∧
        (((u : ℝ) < (10 : ℝ) ^ (-(q : ℝ) / 10)) →
          ∃ b, seq2[i]? = some b ∧ b ≠ c ∧ b ∈ ['A', 'C', 'G', 'T'])) := by
  rw [parse_error, ← hlen] at h
  simp only [drawUniforms_append] at h
  obtain ⟨h1, h2, h3⟩ := parse_error_go_spec us quals seq srest quals2 seq2 s1 h hq hc
  refine ⟨h1, h2, ?_⟩
  intro i u q c hu hq1 hc1
  obtain ⟨hN, hP⟩ := h3 i u q c hu hq1 hc1
  refine ⟨hN, fun hcN => ?_⟩
  obtain ⟨hq2, hnohit, hhit⟩ := hP hcN
  have hqr : 0 ≤ q ∧ q < 80 := hq q (List.getElem?_mem hq1)
  have hcast : ((q.toNat : ℝ)) = ((q : ℝ)) := by
    rw [← Int.cast_natCast, Int.toNat_of_nonneg hqr.1]
  refine ⟨hq2, ?_, ?_⟩
  · intro hnot
    apply hnohit
    cases hEH : errHit u q.toNat with
    | false => rfl
    | true =>
      have hlt := (errHit_iff_rpow u q.toNat).mp hEH
      rw [hcast] at hlt
      exact absurd hlt hnot
  · intro hlt
    apply hhit
    rw [errHit_iff_rpow, hcast]
    exact hlt

/-- Witness for C6: one position, quality 40, base `A`, draw `1/2` (which is
not below `10^-4`), leaving the read unchanged. -/
theorem parse_error_pointwise_witness :
    ([40] : List ℤ).length = ([40] : List ℤ).length ∧
    (['A'] : List Char).length = (['A'] : List Char).length ∧
    ∀ (i : ℕ) (u : ℚ) (q : ℤ) (c : Char),
      ([mkRat 1 2] : List ℚ)[i]? = some u → ([40] : List ℤ)[i]? = some q →
      (['A'] : List Char)[i]? = some c →
      (c = 'N' → ([40] : List ℤ)[i]? = some 1 ∧ (['A'] : List Char)[i]? = some c) ∧
      (c ≠ 'N' → ([40] : List ℤ)[i]? = some q ∧
        (¬ ((u : ℝ) < (10 : ℝ) ^ (-(q : ℝ) / 10)) → (['A'] : List Char)[i]? = some c) ∧
        (((u : ℝ) < (10 : ℝ) ^ (-(q : ℝ) / 10)) →
          ∃ b, (['A'] : List Char)[i]? = some b ∧ b ≠ c ∧ b ∈ ['A', 'C', 'G', 'T'])) :=
  parse_error_pointwise [mkRat 1 2] [40] ['A'] [] [40] ['A'] []
    (by decide) (by decide) (by decide) (by decide)

/-- Python truthiness of the `seed` argument (`None` or an `int`) as tested
by `if seed:` in `Art.__init__`: `None` and `0` are falsy. -/
def Art.seedTruthy (seed : Option ℤ) : Bool :=
  match seed with
  | none => false
  | some z => z != 0

/-- The reseeding step of `Art.__init__` (`if seed: Art.RANDOM_STATE =
np.random.RandomState(seed); ...`): the module-level state is replaced by the
freshly seeded stream only when `seed` is truthy; `fresh` stands for the
stream of `np.random.RandomState(seed)`. -/
def Art.init_random_state (current fresh : List RVal) (seed : Option ℤ) : List RVal :=
  if Art.seedTruthy seed then fresh else current

/-- C9: with seed 0 — exactly as with `None`/omitted — the `Art` constructor
leaves the shared random stream unchanged, because `if seed:` is falsy for
both; the global state is replaced only for nonzero seeds, so seed 0 does
not make runs reproducible. -/
theorem seed_zero_keeps_state (current fresh : List RVal) :
    Art.init_random_state current fresh (some 0) = current ∧
    Art.init_random_state current fresh none = current ∧
    Art.init_random_state current fresh (some 0) = Art.init_random_state current fresh none ∧
    (∀ z : ℤ, z ≠ 0 → Art.init_random_state current fresh (some z) = fresh) := by
  refine ⟨rfl, rfl, rfl, ?_⟩
  intro z hz
  simp [Art.init_random_state, Art.seedTruthy, hz]

/-- Witness for C9 at concrete states and the nonzero seed 42. -/
theorem seed_zero_keeps_state_witness :
    Art.init_random_state [] [RVal.rint 7] (some 0) = [] ∧
    Art.init_random_state [] [RVal.rint 7] (some 42) = [RVal.rint 7] :=
  ⟨(seed_zero_keeps_state [] [RVal.rint 7]).1,
   (seed_zero_keeps_state [] [RVal.rint 7]).2.2.2 42 (by decide)⟩

/-- One tokenized data line of a profile file: the symbol field, the read
position field, and the integer array (`tok[0]`, `int(tok[1])`,
`np.array(tok[2:], dtype=int)`).  Comment and blank lines are skipped by the
reader, so they are not represented. -/
structure PLine where
  symb : Char
  pos : ℤ
  arr : List ℤ
deriving DecidableEq, Repr

namespace EmpDist

/-- The `qual_dist` dictionary: one list of positional tables per symbol of
`ALL_SYMB` (`.`, `A`, `C`, `G`, `T`, `N`). -/
structure QualDist where
  cmb : List (List (ℕ × ℤ))
  qA : List (List (ℕ × ℤ))
  qC : List (List (ℕ × ℤ))
  qG : List (List (ℕ × ℤ))
  qT : List (List (ℕ × ℤ))
  qN : List (List (ℕ × ℤ))
deriving DecidableEq, Repr

def emptyQD : QualDist := ⟨[], [], [], [], [], []⟩

/-- `self.qual_dist_…[symb].append(dist)`: a symbol outside `ALL_SYMB` raises
`KeyError`, converted to `IOError` by the surrounding `try` (`none`). -/
def QualDist.append (d : QualDist) (symb : Char) (dist : List (ℕ × ℤ)) : Option QualDist :=
  match symb with
  | '.' => some { d with cmb := d.cmb ++ [dist] }
  | 'A' => some { d with qA := d.qA ++ [dist] }
  | 'C' => some { d with qC := d.qC ++ [dist] }
  | 'G' => some { d with qG := d.qG ++ [dist] }
  | 'T' => some { d with qT := d.qT ++ [dist] }
  | 'N' => some { d with qN := d.qN ++ [dist] }
  | _ => none

/-- The rescaling `np.ceil(counts * MAX_DIST_NUMBER / counts[-1])` paired
with the matching values.  Counts in a meaningful profile are nonnegative
(they are observation counts), so the ceiling is computed on naturals; a zero
last count makes numpy emit undefined values after its float division by
zero, modelled as threshold 0. -/
def scaleDist (values counts : List ℤ) : List (ℕ × ℤ) :=
  let clast := (counts.getLastD 0).toNat
  (counts.zip values).map
    (fun p => (if clast = 0 then 0 else (p.1.toNat * MAX_DIST_NUMBER + clast - 1) / clast, p.2))

/-- `EmpDist.read_emp_dist` in combined mode (`sep_quals` is asserted false
at construction, so the per-symbol skip branch is the unreachable one):
pairs of lines are consumed; a first line whose symbol is not `.` is
skipped; position counters are checked (`IOError` on a non-sequential
position that is not 0, on a second-line position mismatch, and on a length
mismatch between the two arrays); an empty pair of arrays hits
`counts[-1]` on an empty numpy array (`IndexError`, `none`); the scaled
table is appended under the second line's symbol. -/
def read_emp_dist : List PLine → ℕ → QualDist → Option QualDist
  | [], _, d => some d
  | l1 :: rest, nctr, d =>
    if l1.symb ≠ '.' then read_emp_dist rest nctr d
    else
      if l1.pos ≠ (nctr : ℤ) ∧ l1.pos ≠ 0 then none
      else
        match rest with
        | [] => none
        | l2 :: rest2 =>
          if l2.pos ≠ ((if l1.pos ≠ (nctr : ℤ) then 0 else nctr : ℕ) : ℤ) then none
          else if l1.arr.length ≠ l2.arr.length then none
          else if l2.arr.isEmpty then none
          else
            match d.append l2.symb (scaleDist l1.arr l2.arr) with
            | none => none
            | some d2 => read_emp_dist rest2 ((if l1.pos ≠ (nctr : ℤ) then 0 else nctr) + 1) d2

/-- The parsed profile pair: both `qual_dist` dictionaries and the two
`dist_max` entries. -/
structure Profile where
  qual_dist_first : QualDist
  qual_dist_second : QualDist
  dist_max_first : ℕ
  dist_max_second : ℕ
deriving DecidableEq, Repr

/-- `EmpDist.init_dist` in the supported combined mode: parse both files,
then set `dist_max[FIRST]` and `dist_max[SECOND]` to the lengths of the two
combined-symbol table lists.  (The branch that checks all primary symbols
for full-range coverage lives under `sep_quals = True`, which
`EmpDist.__init__` rejects with an assert, so it is dead code.) -/
def init_dist (file1 file2 : List PLine) : Option Profile :=
  match read_emp_dist file1 0 emptyQD with
  | none => none
  | some d1 =>
    match read_emp_dist file2 0 emptyQD with
    | none => none
    | some d2 => some ⟨d1, d2, d1.cmb.length, d2.cmb.length⟩

end EmpDist

/-- C4 counterexample: a profile pair containing only combined-symbol (`.`)
lines — every primary base symbol is missing at every position — on which
`init_dist` succeeds (no `FormatError`), refuting the claimed validation:
the full-range per-primary-symbol check exists only in the unsupported
`sep_quals` branch, which `__init__`'s assert makes unreachable. -/
theorem init_dist_accepts_missing_primary_symbols :
    EmpDist.init_dist [⟨'.', 0, [40]⟩, ⟨'.', 0, [5]⟩] [⟨'.', 0, [40]⟩, ⟨'.', 0, [5]⟩]
      = some ⟨⟨[[(1000000, 40)]], [], [], [], [], []⟩,
              ⟨[[(1000000, 40)]], [], [], [], [], []⟩, 1, 1⟩ := by
  decide

/-- C4 (amended): in the supported combined-symbol mode `init_dist` performs
no coverage validation at all after parsing: whenever both mate files parse,
it succeeds unconditionally — whatever the primary-symbol lists contain,
including when they are entirely empty — and merely sets each mate's
`dist_max` to the number of parsed combined-symbol positions. -/
theorem init_dist_combined_no_validation (f1 f2 : List PLine)
    (d1 d2 : EmpDist.QualDist)
    (h1 : EmpDist.read_emp_dist f1 0 EmpDist.emptyQD = some d1)
    (h2 : EmpDist.read_emp_dist f2 0 EmpDist.emptyQD = some d2) :
    EmpDist.init_dist f1 f2 = some ⟨d1, d2, d1.cmb.length, d2.cmb.length⟩ := by
  rw [EmpDist.init_dist]
  simp only [h1, h2]

/-- Witness for the amended C4 theorem on a concrete combined-only profile
pair. -/
theorem init_dist_combined_no_validation_witness :
    EmpDist.init_dist [⟨'.', 0, [38]⟩, ⟨'.', 0, [7]⟩] [⟨'.', 0, [35]⟩, ⟨'.', 0, [9]⟩]
      = some ⟨⟨[[(1000000, 38)]], [], [], [], [], []⟩,
              ⟨[[(1000000, 35)]], [], [], [], [], []⟩, 1, 1⟩ :=
  init_dist_combined_no_validation _ _ _ _ (by decide) (by decide)

theorem filter_ge_succ_le (indel : List (ℕ × Char)) (k : ℕ) :
    (indel.filter (fun p => decide (k + 1 ≤ p.1))).length
      ≤ (indel.filter (fun p => decide (k ≤ p.1))).length := by
  induction indel with
  | nil => simp
  | cons p t ih =>
    by_cases h1 : k + 1 ≤ p.1
    · rw [List.filter_cons_of_pos (by simpa using h1),
        List.filter_cons_of_pos (by simp; omega)]
      simpa using ih
    · rw [List.filter_cons_of_neg (by simpa using h1)]
      by_cases h2 : k ≤ p.1
      · rw [List.filter_cons_of_pos (by simpa using h2)]
        exact le_trans ih (Nat.le_succ _)
      · rw [List.filter_cons_of_neg (by simpa using h2)]
        exact ih

theorem filter_ge_succ_lt (indel : List (ℕ × Char)) (k : ℕ)
    (h : (List.lookup k indel).isSome) :
    (indel.filter (fun p => decide (k + 1 ≤ p.1))).length
      < (indel.filter (fun p => decide (k ≤ p.1))).length := by
  induction indel with
  | nil => simp [List.lookup] at h
  | cons p t ih =>
    by_cases hk : k = p.1
    · rw [List.filter_cons_of_neg (by simp; omega), List.filter_cons_of_pos (by simp; omega)]
      exact Nat.lt_succ_of_le (filter_ge_succ_le t k)
    · have hbeq : (k == p.1) = false := beq_eq_false_iff_ne.mpr hk
      have ht : (List.lookup k t).isSome := by
        rw [List.lookup_cons, hbeq] at h
        exact h
      by_cases h2 : k ≤ p.1
      · have h1 : k + 1 ≤ p.1 := by omega
        rw [List.filter_cons_of_pos (by simpa using h1), List.filter_cons_of_pos (by simpa using h2)]
        simpa using ih ht
      · have h1 : ¬ (k + 1 ≤ p.1) := by omega
        rw [List.filter_cons_of_neg (by simpa using h1), List.filter_cons_of_neg (by simpa using h2)]
        exact ih ht

/-- The reconstruction walk of `SeqRead.ref2read`: source index `i` is the
position in the remaining reference slice, `k` the indel-space index; a
position absent from the map copies a reference character, a `'-'` entry
skips one, any other entry emits the stored insertion character without
advancing the reference; once the reference is exhausted the trailing
`while k in self.indel` loop emits every consecutive mapped entry. -/
def SeqRead.ref2read_go (indel : List (ℕ × Char)) : List Char → ℕ → List Char
  | [], k =>
    match h : List.lookup k indel with
    | none => []
    | some v => v :: SeqRead.ref2read_go indel [] (k + 1)
  | c :: rt, k =>
    match h : List.lookup k indel with
    | none => c :: SeqRead.ref2read_go indel rt (k + 1)
    | some v =>
      if v = '-' then SeqRead.ref2read_go indel rt (k + 1)
      else v :: SeqRead.ref2read_go indel (c :: rt) (k + 1)
termination_by ref k => ref.length + (indel.filter (fun p => decide (k ≤ p.1))).length
decreasing_by
  all_goals
    simp only [List.length_nil, List.length_cons]
    first
      | (have hlt := filter_ge_succ_lt indel k (by rw [h]; rfl); omega)
      | (have hle := filter_ge_succ_le indel k; omega)

/-- `SeqRead.ref2read`: with an empty indel map the read is the (already
chopped) reference slice itself (`self.seq_read = self.seq_ref`, a
rebinding, so the array length becomes the slice length); otherwise the walk
writes into the preallocated `seq_read` array of `alloc` cells
(`np.zeros(read_len)` from the constructor) — writing more cells than
`alloc` raises `IndexError` (`none`), writing fewer leaves trailing zero
cells (`NULC`). -/
def SeqRead.ref2read (seq_ref : List Char) (indel : List (ℕ × Char)) (alloc : ℕ) :
    Option (List Char) :=
  if indel.isEmpty then some seq_ref
  else
    if (SeqRead.ref2read_go indel seq_ref 0).length ≤ alloc then
      some (SeqRead.ref2read_go indel seq_ref 0 ++
        List.replicate (alloc - (SeqRead.ref2read_go indel seq_ref 0).length) NULC)
    else none

/-- The observable fields of a generated `SeqRead`: final sequence, quality
vector, indel map, and the (possibly template-truncated) `read_len`
attribute. -/
structure ARead where
  seq_read : List Char
  quals : List ℤ
  indel : List (ℕ × Char)
  read_len : ℕ
deriving DecidableEq, Repr

/-- `Art.next_read_indel_seq`: build a fresh read (its `seq_read` array is
preallocated with the *constructor's* `read_len`), truncate the read's
`read_len` attribute to the template when shorter, run `get_indel` (on the
truncated length), fall back to `get_indel_2` when
`self.read_len - slen > len(mut_temp)` (the *untruncated* length), slice the
uppercased template (plus strand) or the reverse complement of the original
template (minus strand) to `self.read_len - slen`, reconstruct via
`ref2read`, sample qualities for `read.length()` on the strand-selected
mate, and inject errors via `parse_error`. -/
def Art.next_read_indel_seq (art_read_len : ℕ) (ins_rate del_rate : List ℚ)
    (emp : EmpDist.Tables) (template : List Char) (plus_strand : Bool)
    (s : List RVal) : Option (ARead × List RVal) :=
  let mut_temp := Art.make_mutable template
  let rl := if mut_temp.length < art_read_len then mut_temp.length else art_read_len
  match SeqRead.get_indel rl ins_rate del_rate s with
  | none => none
  | some (indel1, slen1, s1) =>
    match (if (art_read_len : ℤ) - slen1 > (mut_temp.length : ℤ) then
             SeqRead.get_indel_2 rl ins_rate del_rate s1
           else some (indel1, slen1, s1)) with
    | none => none
    | some (indel, slen, s2) =>
      let seq_ref :=
        if plus_strand then pySliceTo mut_temp ((art_read_len : ℤ) - slen)
        else pySliceTo (Art.revcomp template) ((art_read_len : ℤ) - slen)
      match SeqRead.ref2read seq_ref indel art_read_len with
      | none => none
      | some seq_read0 =>
        match EmpDist.get_read_qual emp seq_read0.length plus_strand s2 with
        | none => none
        | some (quals0, s3) =>
          match parse_error quals0 seq_read0 s3 with
          | none => none
          | some (quals, seq_read, s4) => some (⟨seq_read, quals, indel, rl⟩, s4)

theorem Art.next_read_indel_seq_unfold
    (art_read_len : ℕ) (ins_rate del_rate : List ℚ) (emp : EmpDist.Tables)
    (template : List Char) (ps : Bool) (s s1 s3 s4 : List RVal)
    (indel1 : List (ℕ × Char)) (slen1 : ℤ) (seq_read0 : List Char)
    (quals0 quals2 : List ℤ) (seq2 : List Char) (rl : ℕ)
    (hrl : rl = (if (Art.make_mutable template).length < art_read_len
                 then (Art.make_mutable template).length else art_read_len))
    (h1 : SeqRead.get_indel rl ins_rate del_rate s = some (indel1, slen1, s1))
    (hfit : ¬ ((art_read_len : ℤ) - slen1 > ((Art.make_mutable template).length : ℤ)))
    (h2 : SeqRead.ref2read
        (if ps then pySliceTo (Art.make_mutable template) ((art_read_len : ℤ) - slen1)
         else pySliceTo (Art.revcomp template) ((art_read_len : ℤ) - slen1))
        indel1 art_read_len = some seq_read0)
    (h3 : EmpDist.get_read_qual emp seq_read0.length ps s1 = some (quals0, s3))
    (h4 : parse_error quals0 seq_read0 s3 = some (quals2, seq2, s4)) :
    Art.next_read_indel_seq art_read_len ins_rate del_rate emp template ps s
      = some (⟨seq2, quals2, indel1, rl⟩, s4) := by
  rw [Art.next_read_indel_seq]
  simp only [← hrl, h1, if_neg hfit, h2, h3, h4]

/-- C2 counterexample: an indel-path read (read length 5, template length 8,
one insertion, `net_delta = 1`) whose reconstructed sequence has length 5 —
the requested read length — not `read_len − net_delta = 4`, and the template
is not shorter than the requested length, so neither disjunct of the claim
holds.  (The reference slice consumed is what has length
`read_len − net_delta`; reconstruction restores the read to full length.) -/
theorem c2_counterexample :
    SeqRead.get_indel 5 [mkRat 1 2, mkRat 1 100] [mkRat 1 10, mkRat 1 100]
      [RVal.unif (mkRat 9 10), RVal.unif (mkRat 9 10), RVal.unif (mkRat 9 10),
       RVal.unif (mkRat 1 5), RVal.rint 2, RVal.rint 1,
       RVal.rint 0, RVal.rint 0, RVal.rint 0, RVal.rint 0, RVal.rint 0,
       RVal.unif (mkRat 1 2), RVal.unif (mkRat 1 2), RVal.unif (mkRat 1 2),
       RVal.unif (mkRat 1 2), RVal.unif (mkRat 1 2)]
      = some ([(2, 'C')], 1,
        [RVal.rint 0, RVal.rint 0, RVal.rint 0, RVal.rint 0, RVal.rint 0,
         RVal.unif (mkRat 1 2), RVal.unif (mkRat 1 2), RVal.unif (mkRat 1 2),
         RVal.unif (mkRat 1 2), RVal.unif (mkRat 1 2)]) ∧
    Art.next_read_indel_seq 5 [mkRat 1 2, mkRat 1 100] [mkRat 1 10, mkRat 1 100]
      ⟨[[(1000000, 40)], [(1000000, 40)], [(1000000, 40)], [(1000000, 40)], [(1000000, 40)]], []⟩
      ['A', 'C', 'G', 'T', 'A', 'C', 'G', 'T'] true
      [RVal.unif (mkRat 9 10), RVal.unif (mkRat 9 10), RVal.unif (mkRat 9 10),
       RVal.unif (mkRat 1 5), RVal.rint 2, RVal.rint 1,
       RVal.rint 0, RVal.rint 0, RVal.rint 0, RVal.rint 0, RVal.rint 0,
       RVal.unif (mkRat 1 2), RVal.unif (mkRat 1 2), RVal.unif (mkRat 1 2),
       RVal.unif (mkRat 1 2), RVal.unif (mkRat 1 2)]
      = some (⟨['A', 'C', 'C', 'G', 'T'], [40, 40, 40, 40, 40], [(2, 'C')], 5⟩, []) ∧
    (['A', 'C', 'C', 'G', 'T'] : List Char).length ≠ 5 - 1 ∧
    ¬ ((['A', 'C', 'G', 'T', 'A', 'C', 'G', 'T'] : List Char).length < 5) := by
  refine ⟨by decide, ?_, by decide, by decide⟩
  exact Art.next_read_indel_seq_unfold 5 [mkRat 1 2, mkRat 1 100] [mkRat 1 10, mkRat 1 100]
    ⟨[[(1000000, 40)], [(1000000, 40)], [(1000000, 40)], [(1000000, 40)], [(1000000, 40)]], []⟩
    ['A', 'C', 'G', 'T', 'A', 'C', 'G', 'T'] true
    [RVal.unif (mkRat 9 10), RVal.unif (mkRat 9 10), RVal.unif (mkRat 9 10),
     RVal.unif (mkRat 1 5), RVal.rint 2, RVal.rint 1,
     RVal.rint 0, RVal.rint 0, RVal.rint 0, RVal.rint 0, RVal.rint 0,
     RVal.unif (mkRat 1 2), RVal.unif (mkRat 1 2), RVal.unif (mkRat 1 2),
     RVal.unif (mkRat 1 2), RVal.unif (mkRat 1 2)]
    [RVal.rint 0, RVal.rint 0, RVal.rint 0, RVal.rint 0, RVal.rint 0,
     RVal.unif (mkRat 1 2), RVal.unif (mkRat 1 2), RVal.unif (mkRat 1 2),
     RVal.unif (mkRat 1 2), RVal.unif (mkRat 1 2)]
    [RVal.unif (mkRat 1 2), RVal.unif (mkRat 1 2), RVal.unif (mkRat 1 2),
     RVal.unif (mkRat 1 2), RVal.unif (mkRat 1 2)]
    []
    [(2, 'C')] 1 ['A', 'C', 'C', 'G', 'T'] [40, 40, 40, 40, 40]
    [40, 40, 40, 40, 40] ['A', 'C', 'C', 'G', 'T'] 5
    (by decide) (by decide) (by decide)
    (by simp [SeqRead.ref2read, SeqRead.ref2read_go, List.lookup, NULC, pySliceTo,
          Art.make_mutable])
    (by decide) (by decide)

theorem place_dels_len (read_len : ℕ) :
    ∀ (s : List RVal) (n : ℕ) (indel m : List (ℕ × Char)) (s1 : List RVal),
      SeqRead.place_dels read_len n indel s = some (m, s1) →
      m.length = indel.length + n := by
  intro s
  induction s with
  | nil =>
    intro n indel m s1 h
    cases n with
    | zero => simp [SeqRead.place_dels] at h; rw [← h.1]; omega
    | succ n => simp [SeqRead.place_dels] at h
  | cons a t ih =>
    intro n indel m s1 h
    cases n with
    | zero => simp [SeqRead.place_dels] at h; rw [← h.1]; omega
    | succ n =>
      cases a with
      | unif q => simp [SeqRead.place_dels] at h
      | rint r =>
        rw [SeqRead.place_dels] at h
        by_cases hrl : 0 < read_len
        · rw [if_pos hrl] at h
          by_cases h0 : r % read_len = 0
          · rw [if_pos h0] at h; exact ih _ _ _ _ h
          · rw [if_neg h0] at h
            by_cases hsome : (indel.lookup (r % read_len)).isSome
            · rw [if_pos hsome] at h; exact ih _ _ _ _ h
            · rw [if_neg hsome] at h
              have := ih _ _ _ _ h
              simp at this
              omega
        · rw [if_neg hrl] at h; simp at h

theorem place_ins_len (read_len : ℕ) (n : ℕ) (indel : List (ℕ × Char)) (s : List RVal) :
    ∀ m s1, SeqRead.place_ins read_len n indel s = some (m, s1) →
      m.length = indel.length + n := by
  induction n, indel, s using SeqRead.place_ins.induct read_len with
  | case1 indel s =>
    intro m s1 h
    simp [SeqRead.place_ins] at h; rw [← h.1]; omega
  | case2 n indel r s1 hrl hsome ih =>
    intro m s2 h
    cases s1 with
    | nil =>
      rw [SeqRead.place_ins, if_pos hrl, if_pos hsome] at h
      · exact ih _ _ h
      · simp
    | cons a t =>
      cases a with
      | unif q =>
        rw [SeqRead.place_ins, if_pos hrl, if_pos hsome] at h
        · exact ih _ _ h
        · simp
      | rint rb =>
        rw [SeqRead.place_ins, if_pos hrl, if_pos hsome] at h
        exact ih _ _ h
  | case3 n indel r hrl hsome rb rest ih =>
    intro m s2 h
    rw [SeqRead.place_ins, if_pos hrl, if_neg hsome] at h
    have := ih _ _ h
    simp at this
    omega
  | case4 n indel r s1 hrl hsome hshape =>
    intro m s2 h
    cases s1 with
    | nil =>
      rw [SeqRead.place_ins, if_pos hrl, if_neg hsome] at h
      · simp at h
      · simp
    | cons a t =>
      cases a with
      | unif q =>
        rw [SeqRead.place_ins, if_pos hrl, if_neg hsome] at h
        · simp at h
        · simp
      | rint rb => exact absurd rfl (hshape rb t)
  | case5 n indel r s1 hrl =>
    intro m s2 h
    cases s1 with
    | nil =>
      rw [SeqRead.place_ins, if_neg hrl] at h
      · simp at h
      · simp
    | cons a t =>
      cases a with
      | unif q =>
        rw [SeqRead.place_ins, if_neg hrl] at h
        · simp at h
        · simp
      | rint rb => rw [SeqRead.place_ins, if_neg hrl] at h; simp at h
  | case6 t n x hshape =>
    intro m s2 h
    cases t with
    | nil => simp [SeqRead.place_ins] at h
    | cons a u =>
      cases a with
      | unif q => simp [SeqRead.place_ins] at h
      | rint r => exact absurd rfl (hshape r u)

theorem del_loop_len (read_len : ℕ) (del_rate : List ℚ) :
    ∀ (i : ℕ) (indel : List (ℕ × Char)) (s : List RVal) (dl : ℕ)
      (m : List (ℕ × Char)) (s1 : List RVal),
      SeqRead.del_loop read_len del_rate i indel s = some (dl, m, s1) →
      m.length = indel.length + dl := by
  intro i
  induction i with
  | zero =>
    intro indel s dl m s1 h
    simp [SeqRead.del_loop] at h
    obtain ⟨h0, h1, -⟩ := h
    rw [← h1]
    omega
  | succ i ih =>
    intro indel s dl m s1 h
    rw [SeqRead.del_loop] at h
    split at h
    · simp at h
    · split at h
      · split at h
        · next indel2 s3 hpd =>
          simp only [Option.some.injEq, Prod.mk.injEq] at h
          obtain ⟨h1, h2, -⟩ := h
          have hpl := place_dels_len read_len _ _ _ _ _ hpd
          rw [← h2]
          omega
        · simp at h
      · exact ih _ _ _ _ _ h

theorem ins_loop_A_len (read_len : ℕ) (ins_rate : List ℚ) (del_len : ℕ) :
    ∀ (i : ℕ) (indel : List (ℕ × Char)) (s : List RVal) (il : ℕ)
      (m : List (ℕ × Char)) (s1 : List RVal),
      SeqRead.ins_loop_A read_len ins_rate del_len i indel s = some (il, m, s1) →
      m.length = indel.length + il := by
  intro i
  induction i with
  | zero =>
    intro indel s il m s1 h
    simp [SeqRead.ins_loop_A] at h
    obtain ⟨h0, h1, -⟩ := h
    rw [← h1]
    omega
  | succ i ih =>
    intro indel s il m s1 h
    rw [SeqRead.ins_loop_A] at h
    split at h
    · exact ih _ _ _ _ _ h
    · split at h
      · simp at h
      · split at h
        · split at h
          · next indel2 s3 hpi =>
            simp only [Option.some.injEq, Prod.mk.injEq] at h
            obtain ⟨h1, h2, -⟩ := h
            have hpl := place_ins_len read_len _ _ _ _ _ hpi
            rw [← h2]
            omega
          · simp at h
        · exact ih _ _ _ _ _ h

theorem ins_loop_B_len (read_len : ℕ) (ins_rate : List ℚ) :
    ∀ (i : ℕ) (indel : List (ℕ × Char)) (s : List RVal) (il : ℕ)
      (m : List (ℕ × Char)) (s1 : List RVal),
      SeqRead.ins_loop_B read_len ins_rate i indel s = some (il, m, s1) →
      m.length = indel.length + il := by
  intro i
  induction i with
  | zero =>
    intro indel s il m s1 h
    simp [SeqRead.ins_loop_B] at h
    obtain ⟨h0, h1, -⟩ := h
    rw [← h1]
    omega
  | succ i ih =>
    intro indel s il m s1 h
    rw [SeqRead.ins_loop_B] at h
    split at h
    · simp at h
    · split at h
      · split at h
        · next indel2 s3 hpi =>
          simp only [Option.some.injEq, Prod.mk.injEq] at h
          obtain ⟨h1, h2, -⟩ := h
          have hpl := place_ins_len read_len _ _ _ _ _ hpi
          rw [← h2]
          omega
        · simp at h
      · exact ih _ _ _ _ _ h

theorem del_loop_B_len (read_len : ℕ) (del_rate : List ℚ) (ins_len : ℕ) :
    ∀ (i : ℕ) (indel : List (ℕ × Char)) (s : List RVal) (dl : ℕ)
      (m : List (ℕ × Char)) (s1 : List RVal),
      SeqRead.del_loop_B read_len del_rate ins_len 0 i indel s = some (dl, m, s1) →
      m.length = indel.length + dl := by
  intro i
  induction i with
  | zero =>
    intro indel s dl m s1 h
    simp [SeqRead.del_loop_B] at h
    obtain ⟨h0, h1, -⟩ := h
    rw [← h1]
    omega
  | succ i ih =>
    intro indel s dl m s1 h
    rw [SeqRead.del_loop_B] at h
    split at h
    · simp only [Option.some.injEq, Prod.mk.injEq] at h
      obtain ⟨h0, h1, -⟩ := h
      rw [← h1]
      omega
    · split at h
      · exact ih _ _ _ _ _ h
      · split at h
        · simp at h
        · split at h
          · split at h
            · next indel2 s3 hpd =>
              simp only [Option.some.injEq, Prod.mk.injEq] at h
              obtain ⟨h1, h2, -⟩ := h
              have hpl := place_dels_len read_len _ _ _ _ _ hpd
              rw [← h2]
              omega
            · simp at h
          · exact ih _ _ _ _ _ h

theorem get_indel_slen_zero_of_empty (read_len : ℕ) (ins_rate del_rate : List ℚ)
    (s : List RVal) (slen : ℤ) (s1 : List RVal)
    (h : SeqRead.get_indel read_len ins_rate del_rate s = some ([], slen, s1)) :
    slen = 0 := by
  rw [SeqRead.get_indel] at h
  split at h
  · simp at h
  · next del_len indel1 s2 hdl =>
    split at h
    · simp at h
    · next ins_len indel2 s3 hil =>
      simp only [Option.some.injEq, Prod.mk.injEq] at h
      obtain ⟨h1, h2, -⟩ := h
      have hd := del_loop_len read_len del_rate _ _ _ _ _ _ hdl
      have hi := ins_loop_A_len read_len ins_rate del_len _ _ _ _ _ _ hil
      rw [h1] at hi
      simp at hd hi
      omega

theorem get_indel_2_slen_zero_of_empty (read_len : ℕ) (ins_rate del_rate : List ℚ)
    (s : List RVal) (slen : ℤ) (s1 : List RVal)
    (h : SeqRead.get_indel_2 read_len ins_rate del_rate s = some ([], slen, s1)) :
    slen = 0 := by
  rw [SeqRead.get_indel_2] at h
  split at h
  · simp at h
  · next ins_len indel1 s2 hil =>
    split at h
    · simp at h
    · next del_len indel2 s3 hdl =>
      simp only [Option.some.injEq, Prod.mk.injEq] at h
      obtain ⟨h1, h2, -⟩ := h
      have hi := ins_loop_B_len read_len ins_rate _ _ _ _ _ _ hil
      have hd := del_loop_B_len read_len del_rate ins_len _ _ _ _ _ _ hdl
      rw [h1] at hd
      simp at hd hi
      omega

theorem ref2read_empty (seq_ref : List Char) (alloc : ℕ) :
    SeqRead.ref2read seq_ref [] alloc = some seq_ref := by
  simp [SeqRead.ref2read]

theorem ref2read_len_nonempty (seq_ref : List Char) (indel : List (ℕ × Char))
    (alloc : ℕ) (out : List Char) (hne : ¬ indel.isEmpty)
    (h : SeqRead.ref2read seq_ref indel alloc = some out) :
    out.length = alloc := by
  rw [SeqRead.ref2read, if_neg (by simpa using hne)] at h
  split at h
  · next hle =>
    simp only [Option.some.injEq] at h
    rw [← h]
    simp only [List.length_append, List.length_replicate]
    omega
  · simp at h

theorem get_read_qual_length (emp : EmpDist.Tables) (rl : ℕ) (mate : Bool)
    (s : List RVal) (quals : List ℤ) (s1 : List RVal)
    (h : EmpDist.get_read_qual emp rl mate s = some (quals, s1)) :
    quals.length = rl := by
  have hcore : ∀ (tabs : List (List (ℕ × ℤ))),
      EmpDist._get_from_dist tabs rl s = some (quals, s1) → quals.length = rl := by
    intro tabs hg
    rw [EmpDist._get_from_dist] at hg
    split at hg
    · simp at hg
    · split at hg
      · simp at hg
      · split at hg
        · split at hg
          · next hlen =>
            simp only [Option.some.injEq, Prod.mk.injEq] at hg
            rw [← hg.1]
            assumption
          · simp at hg
        · simp at hg
  rw [EmpDist.get_read_qual] at h
  split at h
  · split at h
    · exact hcore _ h
    · simp at h
  · split at h
    · exact hcore _ h
    · simp at h

theorem parse_error_go_lengths :
    ∀ (rvals : List ℚ) (quals : List ℤ) (seq : List Char) (s : List RVal)
      (quals2 : List ℤ) (seq2 : List Char) (s1 : List RVal),
      parse_error_go rvals quals seq s = some (quals2, seq2, s1) →
      quals2.length = quals.length ∧ seq2.length = seq.length := by
  intro rvals
  induction rvals with
  | nil =>
    intro quals seq s quals2 seq2 s1 h
    cases quals with
    | cons q qt => simp [parse_error_go] at h
    | nil =>
      rw [parse_error_go] at h
      simp only [Option.some.injEq, Prod.mk.injEq] at h
      obtain ⟨h1, h2, -⟩ := h
      rw [← h1, ← h2]
      exact ⟨rfl, rfl⟩
  | cons rv rvt ih =>
    intro quals seq s quals2 seq2 s1 h
    cases quals with
    | nil => simp [parse_error_go] at h
    | cons q qt =>
      cases seq with
      | nil => simp [parse_error_go] at h
      | cons c ct =>
        rw [parse_error_go] at h
        by_cases hcN : c = EmpDist.N_SYMB
        · rw [if_pos hcN] at h
          split at h
          · next qs cs s2 hrec =>
            simp only [Option.some.injEq, Prod.mk.injEq] at h
            obtain ⟨h1, h2, -⟩ := h
            obtain ⟨ih1, ih2⟩ := ih qt ct s qs cs s2 hrec
            rw [← h1, ← h2]
            simp [ih1, ih2]
          · simp at h
        · rw [if_neg hcN] at h
          cases hpi : probErrIndex q with
          | none => simp [hpi] at h
          | some qi =>
            simp only [hpi] at h
            by_cases hhit : errHit rv qi = true
            · rw [if_pos hhit] at h
              cases hrb : Art.random_base (some c) s with
              | none => simp [hrb] at h
              | some p =>
                obtain ⟨b, s2⟩ := p
                simp only [hrb] at h
                cases hrec : parse_error_go rvt qt ct s2 with
                | none => simp [hrec] at h
                | some triple =>
                  obtain ⟨qs, cs, s3⟩ := triple
                  simp only [hrec, Option.some.injEq, Prod.mk.injEq] at h
                  obtain ⟨h1, h2, -⟩ := h
                  obtain ⟨ih1, ih2⟩ := ih qt ct s2 qs cs s3 hrec
                  rw [← h1, ← h2]
                  simp [ih1, ih2]
            · rw [if_neg hhit] at h
              cases hrec : parse_error_go rvt qt ct s with
              | none => simp [hrec] at h
              | some triple =>
                obtain ⟨qs, cs, s3⟩ := triple
                simp only [hrec, Option.some.injEq, Prod.mk.injEq] at h
                obtain ⟨h1, h2, -⟩ := h
                obtain ⟨ih1, ih2⟩ := ih qt ct s qs cs s3 hrec
                rw [← h1, ← h2]
                simp [ih1, ih2]

theorem parse_error_lengths (quals : List ℤ) (seq : List Char) (s : List RVal)
    (quals2 : List ℤ) (seq2 : List Char) (s1 : List RVal)
    (h : parse_error quals seq s = some (quals2, seq2, s1)) :
    quals2.length = quals.length ∧ seq2.length = seq.length := by
  rw [parse_error] at h
  split at h
  · simp at h
  · next rvals s2 hdu =>
    exact parse_error_go_lengths rvals quals seq s2 quals2 seq2 s1 h

theorem pySliceTo_length_nonneg {α : Type} (l : List α) (stop : ℤ) (h : 0 ≤ stop) :
    (pySliceTo l stop).length = min stop.toNat l.length := by
  rw [pySliceTo, if_neg (by omega)]
  simp [List.length_take]

/-- C2 (amended): for every read produced by the indel path
(`Art.next_read_indel_seq`), the output sequence length equals the requested
read length `read_len` whenever any indel was generated, and
`min read_len (template length)` when the indel map is empty (in which case
`net_delta = 0`); the quality vector always matches the sequence length.
The reference slice consumed — not the output — has length
`read_len − net_delta`. -/
theorem next_read_indel_seq_length (art_read_len : ℕ) (ins_rate del_rate : List ℚ)
    (emp : EmpDist.Tables) (template : List Char) (ps : Bool) (s s4 : List RVal)
    (read : ARead)
    (h : Art.next_read_indel_seq art_read_len ins_rate del_rate emp template ps s
          = some (read, s4)) :
    read.seq_read.length
      = (if read.indel.isEmpty then min art_read_len template.length else art_read_len) ∧
    read.quals.length = read.seq_read.length := by
  have hmut : (Art.make_mutable template).length = template.length := by
    simp [Art.make_mutable]
  have hrc : (Art.revcomp template).length = template.length := by
    simp [Art.revcomp]
  rw [Art.next_read_indel_seq] at h
  set rl : ℕ :=
    (if (Art.make_mutable template).length < art_read_len
     then (Art.make_mutable template).length else art_read_len) with hrl
  split at h
  · simp at h
  · next indel1 slen1 s1 hgi =>
    split at h
    · simp at h
    · next indel slen s2 hstage2 =>
      set sref : List Char :=
        (if ps = true then pySliceTo (Art.make_mutable template) ((art_read_len : ℤ) - slen)
         else pySliceTo (Art.revcomp template) ((art_read_len : ℤ) - slen)) with hsref
      simp only [] at h
      split at h
      · simp at h
      · next seq_read0 hr2r =>
        split at h
        · simp at h
        · next quals0 s3 hgq =>
          split at h
          · simp at h
          · next quals2 seq2 s4x hpe =>
            simp only [Option.some.injEq, Prod.mk.injEq] at h
            obtain ⟨hread, hs4⟩ := h
            have hslen_zero : indel = [] → slen = 0 := by
              intro hempty
              subst hempty
              by_cases hfit : ((art_read_len : ℤ) - slen1 > ((Art.make_mutable template).length : ℤ))
              · rw [if_pos hfit] at hstage2
                exact get_indel_2_slen_zero_of_empty _ _ _ _ _ _ hstage2
              · rw [if_neg hfit] at hstage2
                simp only [Option.some.injEq, Prod.mk.injEq] at hstage2
                obtain ⟨he1, he2, -⟩ := hstage2
                rw [he1, he2] at hgi
                exact get_indel_slen_zero_of_empty _ _ _ _ _ _ hgi
            have hlen0 : seq_read0.length
                = (if indel.isEmpty then min art_read_len template.length else art_read_len) := by
              by_cases hempty : indel.isEmpty
              · have hebn : indel = [] := by simpa [List.isEmpty_iff] using hempty
                have hz : slen = 0 := hslen_zero hebn
                rw [hebn, ref2read_empty] at hr2r
                simp only [Option.some.injEq] at hr2r
                rw [if_pos hempty, ← hr2r, hsref]
                subst hz
                cases ps with
                | true =>
                  rw [if_pos rfl, pySliceTo_length_nonneg _ _ (by omega)]
                  rw [hmut]
                  simp
                | false =>
                  rw [if_neg (by simp), pySliceTo_length_nonneg _ _ (by omega)]
                  rw [hrc]
                  simp
              · rw [if_neg hempty]
                exact ref2read_len_nonempty _ _ _ _ hempty hr2r
            have hql : quals0.length = seq_read0.length :=
              get_read_qual_length _ _ _ _ _ _ hgq
            obtain ⟨hpl1, hpl2⟩ := parse_error_lengths _ _ _ _ _ _ hpe
            rw [← hread]
            constructor
            · simpa [hpl2] using hlen0
            · simp [hpl1, hpl2, hql]

/-- Witness for the amended C2 theorem: an indel-free run with read length 2
on a 3-base template. -/
theorem next_read_indel_seq_length_witness :
    (ARead.mk ['A', 'C'] [40, 40] [] 2).seq_read.length
      = (if (ARead.mk ['A', 'C'] [40, 40] [] 2).indel.isEmpty
         then min 2 (['A', 'C', 'G'] : List Char).length else 2) ∧
    (ARead.mk ['A', 'C'] [40, 40] [] 2).quals.length
      = (ARead.mk ['A', 'C'] [40, 40] [] 2).seq_read.length :=
  next_read_indel_seq_length 2 [mkRat 1 100] [mkRat 1 100]
    ⟨[[(1000000, 40)], [(1000000, 40)]], []⟩ ['A', 'C', 'G'] true
    [RVal.unif (mkRat 9 10), RVal.unif (mkRat 9 10), RVal.rint 0, RVal.rint 0,
     RVal.unif (mkRat 1 2), RVal.unif (mkRat 1 2)]
    [] (ARead.mk ['A', 'C'] [40, 40] [] 2) (by decide)

/-- Python list slice `l[start:stop]` for `0 ≤ start` and integer `stop`. -/
def pySliceFrom {α : Type} (l : List α) (start : ℕ) (stop : ℤ) : List α :=
  (pySliceTo l stop).drop start

/-- `Art.next_read_simple_seq`: the simplified error-free path — a direct
prefix slice of the template (or of its reverse complement) up to the
constructor's read length, no indels (`ref2read` with an empty map), and a
constant quality for every position of the (possibly truncated)
`read_len`.  It draws nothing from the random stream. -/
def Art.next_read_simple_seq (art_read_len : ℕ) (template : List Char)
    (plus_strand : Bool) (qual_val : ℤ) : Option ARead :=
  let rl := if template.length < art_read_len then template.length else art_read_len
  let seq_ref := if plus_strand then template.take art_read_len
                 else (Art.revcomp template).take art_read_len
  match SeqRead.ref2read seq_ref [] art_read_len with
  | none => none
  | some sr => some ⟨sr, List.replicate rl qual_val, [], rl⟩

/-- `Art.next_read_indel_at`: a read at a caller-supplied position and
strand, sliced out of the stored reference (`ref_seq`, uppercased) or its
precomputed reverse complement (`ref_seq_cmp`); the read length is never
truncated here, the fit check is against the reference end, and the
qualities are always drawn from the first-mate profile (the source passes
`True`). -/
def Art.next_read_indel_at (art_read_len : ℕ) (ins_rate del_rate : List ℚ)
    (emp : EmpDist.Tables) (ref_seq ref_seq_cmp : List Char) (pos : ℕ)
    (plus_strand : Bool) (s : List RVal) : Option (ARead × List RVal) :=
  match SeqRead.get_indel art_read_len ins_rate del_rate s with
  | none => none
  | some (indel1, slen1, s1) =>
    match (if (pos : ℤ) + (art_read_len : ℤ) - slen1 > (ref_seq.length : ℤ) then
             SeqRead.get_indel_2 art_read_len ins_rate del_rate s1
           else some (indel1, slen1, s1)) with
    | none => none
    | some (indel, slen, s2) =>
      let seq_ref := if plus_strand
        then pySliceFrom ref_seq pos ((pos : ℤ) + (art_read_len : ℤ) - slen)
        else pySliceFrom ref_seq_cmp pos ((pos : ℤ) + (art_read_len : ℤ) - slen)
      match SeqRead.ref2read seq_ref indel art_read_len with
      | none => none
      | some seq_read0 =>
        match EmpDist.get_read_qual emp seq_read0.length true s2 with
        | none => none
        | some (quals0, s3) =>
          match parse_error quals0 seq_read0 s3 with
          | none => none
          | some (quals, seq_read, s4) => some (⟨seq_read, quals, indel, art_read_len⟩, s4)

/-- Prefix determinism of a stream transformer: a successful run is fully
determined by the prefix of the random stream it consumed — it returns the
same result on every stream extending that prefix, handing back the
extension untouched.  Two runs over the same seeded stream therefore
produce identical results, and the result changes only if the consumed
draws change. -/
def StreamDet {α : Type} (f : List RVal → Option (α × List RVal)) : Prop :=
  ∀ s r rest, f s = some (r, rest) →
    ∃ pre, s = pre ++ rest ∧ ∀ t, f (pre ++ t) = some (r, t)

theorem place_dels_zero (read_len : ℕ) (indel : List (ℕ × Char)) (s : List RVal) :
    SeqRead.place_dels read_len 0 indel s = some (indel, s) := by
  cases s with
  | nil => rfl
  | cons a t => cases a <;> rfl

theorem place_ins_zero (read_len : ℕ) (indel : List (ℕ × Char)) (s : List RVal) :
    SeqRead.place_ins read_len 0 indel s = some (indel, s) := by
  cases s with
  | nil => rfl
  | cons a t => cases a <;> rfl

theorem place_dels_det (read_len : ℕ) :
    ∀ (s : List RVal) (n : ℕ) (indel m : List (ℕ × Char)) (s1 : List RVal),
      SeqRead.place_dels read_len n indel s = some (m, s1) →
      ∃ pre, s = pre ++ s1 ∧
        ∀ t, SeqRead.place_dels read_len n indel (pre ++ t) = some (m, t) := by
  intro s
  induction s with
  | nil =>
    intro n indel m s1 h
    cases n with
    | zero =>
      simp [SeqRead.place_dels] at h
      obtain ⟨h1, h2⟩ := h
      exact ⟨[], by simp [← h2], fun t => by rw [List.nil_append, ← h1, place_dels_zero]⟩
    | succ n => simp [SeqRead.place_dels] at h
  | cons a t ih =>
    intro n indel m s1 h
    cases n with
    | zero =>
      simp [SeqRead.place_dels] at h
      obtain ⟨h1, h2⟩ := h
      exact ⟨[], by simp [h2], fun t2 => by rw [List.nil_append, ← h1, place_dels_zero]⟩
    | succ n =>
      cases a with
      | unif q => simp [SeqRead.place_dels] at h
      | rint r =>
        rw [SeqRead.place_dels] at h
        by_cases hrl : 0 < read_len
        · rw [if_pos hrl] at h
          by_cases h0 : r % read_len = 0
          · rw [if_pos h0] at h
            obtain ⟨pre, hpre, hdet⟩ := ih _ _ _ _ h
            refine ⟨RVal.rint r :: pre, by simp [hpre], fun t2 => ?_⟩
            rw [List.cons_append, SeqRead.place_dels, if_pos hrl, if_pos h0]
            exact hdet t2
          · rw [if_neg h0] at h
            by_cases hsome : (indel.lookup (r % read_len)).isSome
            · rw [if_pos hsome] at h
              obtain ⟨pre, hpre, hdet⟩ := ih _ _ _ _ h
              refine ⟨RVal.rint r :: pre, by simp [hpre], fun t2 => ?_⟩
              rw [List.cons_append, SeqRead.place_dels, if_pos hrl, if_neg h0, if_pos hsome]
              exact hdet t2
            · rw [if_neg hsome] at h
              obtain ⟨pre, hpre, hdet⟩ := ih _ _ _ _ h
              refine ⟨RVal.rint r :: pre, by simp [hpre], fun t2 => ?_⟩
              rw [List.cons_append, SeqRead.place_dels, if_pos hrl, if_neg h0, if_neg hsome]
              exact hdet t2
        · rw [if_neg hrl] at h; simp at h

theorem place_ins_det (read_len : ℕ) (n : ℕ) (indel : List (ℕ × Char)) (s : List RVal) :
    ∀ m s1, SeqRead.place_ins read_len n indel s = some (m, s1) →
      ∃ pre, s = pre ++ s1 ∧
        ∀ t, SeqRead.place_ins read_len n indel (pre ++ t) = some (m, t) := by
  induction n, indel, s using SeqRead.place_ins.induct read_len with
  | case1 indel s =>
    intro m s1 h
    simp [SeqRead.place_ins] at h
    obtain ⟨h1, h2⟩ := h
    exact ⟨[], by simp [h2], fun t2 => by rw [List.nil_append, ← h1, place_ins_zero]⟩
  | case2 n indel r s1 hrl hsome ih =>
    intro m s2 h
    have hh : SeqRead.place_ins read_len (n+1) indel s1 = some (m, s2) := by
      cases s1 with
      | nil =>
        rw [SeqRead.place_ins, if_pos hrl, if_pos hsome] at h
        · exact h
        · simp
      | cons b u =>
        cases b with
        | unif q =>
          rw [SeqRead.place_ins, if_pos hrl, if_pos hsome] at h
          · exact h
          · simp
        | rint rb =>
          rw [SeqRead.place_ins, if_pos hrl, if_pos hsome] at h
          exact h
    obtain ⟨pre, hpre, hdet⟩ := ih _ _ hh
    refine ⟨RVal.rint r :: pre, by simp [hpre], fun t2 => ?_⟩
    have hsh : pre ++ t2 = [] ∨ ∃ b u, pre ++ t2 = b :: u := by
      cases hx : pre ++ t2 with
      | nil => exact Or.inl rfl
      | cons b u => exact Or.inr ⟨b, u, rfl⟩
    rcases hsh with hx | ⟨b, u, hx⟩
    · rw [List.cons_append, hx, SeqRead.place_ins, if_pos hrl, if_pos hsome]
      · rw [← hx]; exact hdet t2
      · simp
    · cases b with
      | unif q =>
        rw [List.cons_append, hx, SeqRead.place_ins, if_pos hrl, if_pos hsome]
        · rw [← hx]; exact hdet t2
        · simp
      | rint rb =>
        rw [List.cons_append, hx, SeqRead.place_ins, if_pos hrl, if_pos hsome]
        rw [← hx]; exact hdet t2
  | case3 n indel r hrl hsome rb rest ih =>
    intro m s2 h
    rw [SeqRead.place_ins, if_pos hrl, if_neg hsome] at h
    obtain ⟨pre, hpre, hdet⟩ := ih _ _ h
    refine ⟨RVal.rint r :: RVal.rint rb :: pre, by simp [hpre], fun t2 => ?_⟩
    rw [List.cons_append, List.cons_append, SeqRead.place_ins, if_pos hrl, if_neg hsome]
    exact hdet t2
  | case4 n indel r s1 hrl hsome hshape =>
    intro m s2 h
    cases s1 with
    | nil =>
      rw [SeqRead.place_ins, if_pos hrl, if_neg hsome] at h
      · simp at h
      · simp
    | cons b u =>
      cases b with
      | unif q =>
        rw [SeqRead.place_ins, if_pos hrl, if_neg hsome] at h
        · simp at h
        · simp
      | rint rb => exact absurd rfl (hshape rb u)
  | case5 n indel r s1 hrl =>
    intro m s2 h
    cases s1 with
    | nil =>
      rw [SeqRead.place_ins, if_neg hrl] at h
      · simp at h
      · simp
    | cons b u =>
      cases b with
      | unif q =>
        rw [SeqRead.place_ins, if_neg hrl] at h
        · simp at h
        · simp
      | rint rb => rw [SeqRead.place_ins, if_neg hrl] at h; simp at h
  | case6 t n x hshape =>
    intro m s2 h
    cases t with
    | nil => simp [SeqRead.place_ins] at h
    | cons b u =>
      cases b with
      | unif q => simp [SeqRead.place_ins] at h
      | rint r => exact absurd rfl (hshape r u)

theorem takeUnif_shape {s : List RVal} {u : ℚ} {s2 : List RVal}
    (h : takeUnif s = some (u, s2)) : s = RVal.unif u :: s2 := by
  cases s with
  | nil => simp [takeUnif] at h
  | cons a t =>
    cases a with
    | unif q =>
      simp [takeUnif] at h
      rw [h.1, h.2]
    | rint r => simp [takeUnif] at h

theorem del_loop_det (read_len : ℕ) (del_rate : List ℚ) :
    ∀ (i : ℕ) (indel : List (ℕ × Char)) (s : List RVal) (dl : ℕ)
      (m : List (ℕ × Char)) (s1 : List RVal),
      SeqRead.del_loop read_len del_rate i indel s = some (dl, m, s1) →
      ∃ pre, s = pre ++ s1 ∧
        ∀ t, SeqRead.del_loop read_len del_rate i indel (pre ++ t) = some (dl, m, t) := by
  intro i
  induction i with
  | zero =>
    intro indel s dl m s1 h
    simp [SeqRead.del_loop] at h
    obtain ⟨h1, h2, h3⟩ := h
    exact ⟨[], by simp [← h3], fun t => by rw [List.nil_append, ← h1, ← h2]; rfl⟩
  | succ i ih =>
    intro indel s dl m s1 h
    rw [SeqRead.del_loop] at h
    split at h
    · simp at h
    · next u s2 htu =>
      have hs : s = RVal.unif u :: s2 := takeUnif_shape htu
      split at h
      · next hrate =>
        split at h
        · next indel2 s3 hpd =>
          simp only [Option.some.injEq, Prod.mk.injEq] at h
          obtain ⟨h1, h2, h3⟩ := h
          obtain ⟨pre2, hpre2, hdet2⟩ := place_dels_det read_len _ _ _ _ _ hpd
          refine ⟨RVal.unif u :: pre2, by rw [hs, hpre2, h3]; rfl, fun t2 => ?_⟩
          rw [List.cons_append, SeqRead.del_loop]
          simp only [takeUnif, if_pos hrate, hdet2 t2]
          rw [h1, h2]
        · simp at h
      · next hrate =>
        obtain ⟨pre0, hpre0, hdet0⟩ := ih _ _ _ _ _ h
        refine ⟨RVal.unif u :: pre0, by rw [hs, hpre0]; rfl, fun t2 => ?_⟩
        rw [List.cons_append, SeqRead.del_loop]
        simp only [takeUnif, if_neg hrate]
        exact hdet0 t2

theorem ins_loop_A_det (read_len : ℕ) (ins_rate : List ℚ) (del_len : ℕ) :
    ∀ (i : ℕ) (indel : List (ℕ × Char)) (s : List RVal) (il : ℕ)
      (m : List (ℕ × Char)) (s1 : List RVal),
      SeqRead.ins_loop_A read_len ins_rate del_len i indel s = some (il, m, s1) →
      ∃ pre, s = pre ++ s1 ∧
        ∀ t, SeqRead.ins_loop_A read_len ins_rate del_len i indel (pre ++ t)
          = some (il, m, t) := by
  intro i
  induction i with
  | zero =>
    intro indel s il m s1 h
    simp [SeqRead.ins_loop_A] at h
    obtain ⟨h1, h2, h3⟩ := h
    exact ⟨[], by simp [← h3], fun t => by rw [List.nil_append, ← h1, ← h2]; rfl⟩
  | succ i ih =>
    intro indel s il m s1 h
    rw [SeqRead.ins_loop_A] at h
    split at h
    · next hskip =>
      obtain ⟨pre0, hpre0, hdet0⟩ := ih _ _ _ _ _ h
      refine ⟨pre0, hpre0, fun t2 => ?_⟩
      rw [SeqRead.ins_loop_A, if_pos hskip]
      exact hdet0 t2
    · next hskip =>
      split at h
      · simp at h
      · next u s2 htu =>
        have hs : s = RVal.unif u :: s2 := takeUnif_shape htu
        split at h
        · next hrate =>
          split at h
          · next indel2 s3 hpi =>
            simp only [Option.some.injEq, Prod.mk.injEq] at h
            obtain ⟨h1, h2, h3⟩ := h
            obtain ⟨pre2, hpre2, hdet2⟩ := place_ins_det read_len _ _ _ _ _ hpi
            refine ⟨RVal.unif u :: pre2, by rw [hs, hpre2, h3]; rfl, fun t2 => ?_⟩
            rw [List.cons_append, SeqRead.ins_loop_A, if_neg hskip]
            simp only [takeUnif, if_pos hrate, hdet2 t2]
            rw [h1, h2]
          · simp at h
        · next hrate =>
          obtain ⟨pre0, hpre0, hdet0⟩ := ih _ _ _ _ _ h
          refine ⟨RVal.unif u :: pre0, by rw [hs, hpre0]; rfl, fun t2 => ?_⟩
          rw [List.cons_append, SeqRead.ins_loop_A, if_neg hskip]
          simp only [takeUnif, if_neg hrate]
          exact hdet0 t2

theorem ins_loop_B_det (read_len : ℕ) (ins_rate : List ℚ) :
    ∀ (i : ℕ) (indel : List (ℕ × Char)) (s : List RVal) (il : ℕ)
      (m : List (ℕ × Char)) (s1 : List RVal),
      SeqRead.ins_loop_B read_len ins_rate i indel s = some (il, m, s1) →
      ∃ pre, s = pre ++ s1 ∧
        ∀ t, SeqRead.ins_loop_B read_len ins_rate i indel (pre ++ t) = some (il, m, t) := by
  intro i
  induction i with
  | zero =>
    intro indel s il m s1 h
    simp [SeqRead.ins_loop_B] at h
    obtain ⟨h1, h2, h3⟩ := h
    exact ⟨[], by simp [← h3], fun t => by rw [List.nil_append, ← h1, ← h2]; rfl⟩
  | succ i ih =>
    intro indel s il m s1 h
    rw [SeqRead.ins_loop_B] at h
    split at h
    · simp at h
    · next u s2 htu =>
      have hs : s = RVal.unif u :: s2 := takeUnif_shape htu
      split at h
      · next hrate =>
        split at h
        · next indel2 s3 hpi =>
          simp only [Option.some.injEq, Prod.mk.injEq] at h
          obtain ⟨h1, h2, h3⟩ := h
          obtain ⟨pre2, hpre2, hdet2⟩ := place_ins_det read_len _ _ _ _ _ hpi
          refine ⟨RVal.unif u :: pre2, by rw [hs, hpre2, h3]; rfl, fun t2 => ?_⟩
          rw [List.cons_append, SeqRead.ins_loop_B]
          simp only [takeUnif, if_pos hrate, hdet2 t2]
          rw [h1, h2]
        · simp at h
      · next hrate =>
        obtain ⟨pre0, hpre0, hdet0⟩ := ih _ _ _ _ _ h
        refine ⟨RVal.unif u :: pre0, by rw [hs, hpre0]; rfl, fun t2 => ?_⟩
        rw [List.cons_append, SeqRead.ins_loop_B]
        simp only [takeUnif, if_neg hrate]
        exact hdet0 t2

theorem del_loop_B_det (read_len : ℕ) (del_rate : List ℚ) (ins_len : ℕ) (d0 : ℕ) :
    ∀ (i : ℕ) (indel : List (ℕ × Char)) (s : List RVal) (dl : ℕ)
      (m : List (ℕ × Char)) (s1 : List RVal),
      SeqRead.del_loop_B read_len del_rate ins_len d0 i indel s = some (dl, m, s1) →
      ∃ pre, s = pre ++ s1 ∧
        ∀ t, SeqRead.del_loop_B read_len del_rate ins_len d0 i indel (pre ++ t)
          = some (dl, m, t) := by
  intro i
  induction i with
  | zero =>
    intro indel s dl m s1 h
    simp [SeqRead.del_loop_B] at h
    obtain ⟨h1, h2, h3⟩ := h
    exact ⟨[], by simp [← h3], fun t => by rw [List.nil_append, ← h1, ← h2]; rfl⟩
  | succ i ih =>
    intro indel s dl m s1 h
    rw [SeqRead.del_loop_B] at h
    split at h
    · next heq =>
      simp only [Option.some.injEq, Prod.mk.injEq] at h
      obtain ⟨h1, h2, h3⟩ := h
      refine ⟨[], by simp [← h3], fun t => ?_⟩
      rw [List.nil_append, SeqRead.del_loop_B, if_pos heq, ← h1, ← h2]
    · next heq =>
      split at h
      · next hskip =>
        obtain ⟨pre0, hpre0, hdet0⟩ := ih _ _ _ _ _ h
        refine ⟨pre0, hpre0, fun t2 => ?_⟩
        rw [SeqRead.del_loop_B, if_neg heq, if_pos hskip]
        exact hdet0 t2
      · next hskip =>
        split at h
        · simp at h
        · next u s2 htu =>
          have hs : s = RVal.unif u :: s2 := takeUnif_shape htu
          split at h
          · next hrate =>
            split at h
            · next indel2 s3 hpd =>
              simp only [Option.some.injEq, Prod.mk.injEq] at h
              obtain ⟨h1, h2, h3⟩ := h
              obtain ⟨pre2, hpre2, hdet2⟩ := place_dels_det read_len _ _ _ _ _ hpd
              refine ⟨RVal.unif u :: pre2, by rw [hs, hpre2, h3]; rfl, fun t2 => ?_⟩
              rw [List.cons_append, SeqRead.del_loop_B, if_neg heq, if_neg hskip]
              simp only [takeUnif, if_pos hrate, hdet2 t2]
              rw [h1, h2]
            · simp at h
          · next hrate =>
            obtain ⟨pre0, hpre0, hdet0⟩ := ih _ _ _ _ _ h
            refine ⟨RVal.unif u :: pre0, by rw [hs, hpre0]; rfl, fun t2 => ?_⟩
            rw [List.cons_append, SeqRead.del_loop_B, if_neg heq, if_neg hskip]
            simp only [takeUnif, if_neg hrate]
            exact hdet0 t2

theorem get_indel_det (read_len : ℕ) (ins_rate del_rate : List ℚ)
    (s : List RVal) (m : List (ℕ × Char)) (slen : ℤ) (s1 : List RVal)
    (h : SeqRead.get_indel read_len ins_rate del_rate s = some (m, slen, s1)) :
    ∃ pre, s = pre ++ s1 ∧
      ∀ t, SeqRead.get_indel read_len ins_rate del_rate (pre ++ t) = some (m, slen, t) := by
  rw [SeqRead.get_indel] at h
  split at h
  · simp at h
  · next dl i1 s2 hdl =>
    split at h
    · simp at h
    · next il i2 s3 hil =>
      simp only [Option.some.injEq, Prod.mk.injEq] at h
      obtain ⟨h1, h2, h3⟩ := h
      obtain ⟨pre1, hpre1, hdet1⟩ := del_loop_det read_len del_rate _ _ _ _ _ _ hdl
      obtain ⟨pre2, hpre2, hdet2⟩ := ins_loop_A_det read_len ins_rate dl _ _ _ _ _ _ hil
      refine ⟨pre1 ++ pre2, by rw [hpre1, hpre2, h3, List.append_assoc], fun t2 => ?_⟩
      rw [List.append_assoc, SeqRead.get_indel]
      simp only [hdet1 (pre2 ++ t2), hdet2 t2]
      rw [h1, h2]

theorem get_indel_2_det (read_len : ℕ) (ins_rate del_rate : List ℚ)
    (s : List RVal) (m : List (ℕ × Char)) (slen : ℤ) (s1 : List RVal)
    (h : SeqRead.get_indel_2 read_len ins_rate del_rate s = some (m, slen, s1)) :
    ∃ pre, s = pre ++ s1 ∧
      ∀ t, SeqRead.get_indel_2 read_len ins_rate del_rate (pre ++ t) = some (m, slen, t) := by
  rw [SeqRead.get_indel_2] at h
  split at h
  · simp at h
  · next il i1 s2 hil =>
    split at h
    · simp at h
    · next dl i2 s3 hdl =>
      simp only [Option.some.injEq, Prod.mk.injEq] at h
      obtain ⟨h1, h2, h3⟩ := h
      obtain ⟨pre1, hpre1, hdet1⟩ := ins_loop_B_det read_len ins_rate _ _ _ _ _ _ hil
      obtain ⟨pre2, hpre2, hdet2⟩ := del_loop_B_det read_len del_rate il 0 _ _ _ _ _ _ hdl
      refine ⟨pre1 ++ pre2, by rw [hpre1, hpre2, h3, List.append_assoc], fun t2 => ?_⟩
      rw [List.append_assoc, SeqRead.get_indel_2]
      simp only [hdet1 (pre2 ++ t2), hdet2 t2]
      rw [h1, h2]

theorem drawRandints_zero (s : List RVal) : drawRandints 0 s = some ([], s) := by
  cases s with
  | nil => rfl
  | cons a t => cases a <;> rfl

theorem drawUniforms_zero (s : List RVal) : drawUniforms 0 s = some ([], s) := by
  cases s with
  | nil => rfl
  | cons a t => cases a <;> rfl

theorem drawRandints_det :
    ∀ (n : ℕ) (s : List RVal) (rs : List ℕ) (s1 : List RVal),
      drawRandints n s = some (rs, s1) →
      ∃ pre, s = pre ++ s1 ∧ ∀ t, drawRandints n (pre ++ t) = some (rs, t) := by
  intro n
  induction n with
  | zero =>
    intro s rs s1 h
    simp [drawRandints] at h
    obtain ⟨h1, h2⟩ := h
    exact ⟨[], by simp [← h2], fun t => by rw [List.nil_append, h1]; exact drawRandints_zero t⟩
  | succ n ih =>
    intro s rs s1 h
    cases s with
    | nil => simp [drawRandints] at h
    | cons a t =>
      cases a with
      | unif q => simp [drawRandints] at h
      | rint r =>
        rw [drawRandints] at h
        split at h
        · next rs0 s2 hrec =>
          simp only [Option.some.injEq, Prod.mk.injEq] at h
          obtain ⟨h1, h2⟩ := h
          obtain ⟨pre0, hpre0, hdet0⟩ := ih _ _ _ hrec
          refine ⟨RVal.rint r :: pre0, by rw [hpre0, h2]; rfl, fun t2 => ?_⟩
          rw [List.cons_append, drawRandints]
          simp only [hdet0 t2]
          rw [h1]
        · simp at h

theorem drawUniforms_det :
    ∀ (n : ℕ) (s : List RVal) (us : List ℚ) (s1 : List RVal),
      drawUniforms n s = some (us, s1) →
      ∃ pre, s = pre ++ s1 ∧ ∀ t, drawUniforms n (pre ++ t) = some (us, t) := by
  intro n
  induction n with
  | zero =>
    intro s us s1 h
    simp [drawUniforms] at h
    obtain ⟨h1, h2⟩ := h
    exact ⟨[], by simp [← h2], fun t => by rw [List.nil_append, h1]; exact drawUniforms_zero t⟩
  | succ n ih =>
    intro s us s1 h
    cases s with
    | nil => simp [drawUniforms] at h
    | cons a t =>
      cases a with
      | rint r => simp [drawUniforms] at h
      | unif q =>
        rw [drawUniforms] at h
        split at h
        · next us0 s2 hrec =>
          simp only [Option.some.injEq, Prod.mk.injEq] at h
          obtain ⟨h1, h2⟩ := h
          obtain ⟨pre0, hpre0, hdet0⟩ := ih _ _ _ hrec
          refine ⟨RVal.unif q :: pre0, by rw [hpre0, h2]; rfl, fun t2 => ?_⟩
          rw [List.cons_append, drawUniforms]
          simp only [hdet0 t2]
          rw [h1]
        · simp at h

theorem random_base_det (excl : Option Char) (s : List RVal) (b : Char) (s1 : List RVal)
    (h : Art.random_base excl s = some (b, s1)) :
    ∃ pre, s = pre ++ s1 ∧ ∀ t, Art.random_base excl (pre ++ t) = some (b, t) := by
  rw [Art.random_base] at h
  by_cases hf : excl = none ∨ excl = some NULC
  · rw [if_pos hf] at h
    cases s with
    | nil => simp [takeRandint] at h
    | cons a t =>
      cases a with
      | unif q => simp [takeRandint] at h
      | rint r =>
        rw [takeRandint] at h
        rw [if_pos (by norm_num)] at h
        simp only [Option.some.injEq, Prod.mk.injEq] at h
        obtain ⟨h1, h2⟩ := h
        refine ⟨[RVal.rint r], by rw [h2]; rfl, fun t2 => ?_⟩
        rw [Art.random_base, if_pos hf, List.cons_append, List.nil_append, takeRandint]
        rw [if_pos (by norm_num)]
        simp only [Option.some.injEq, Prod.mk.injEq]
        exact ⟨h1, trivial⟩
  · rw [if_neg hf] at h
    split at h
    · simp at h
    · next ko hko =>
      cases s with
      | nil => simp [takeRandint] at h
      | cons a t =>
        cases a with
        | unif q => simp [takeRandint] at h
        | rint r =>
          rw [takeRandint] at h
          rw [if_pos (by norm_num)] at h
          simp only [Option.some.injEq, Prod.mk.injEq] at h
          obtain ⟨h1, h2⟩ := h
          refine ⟨[RVal.rint r], by rw [h2]; rfl, fun t2 => ?_⟩
          rw [Art.random_base, if_neg hf, List.cons_append, List.nil_append]
          simp only [hko, takeRandint]
          rw [if_pos (by norm_num)]
          simp only [Option.some.injEq, Prod.mk.injEq]
          exact ⟨h1, trivial⟩

theorem parse_error_go_det :
    ∀ (rvals : List ℚ) (quals : List ℤ) (seq : List Char) (s : List RVal)
      (quals2 : List ℤ) (seq2 : List Char) (s1 : List RVal),
      parse_error_go rvals quals seq s = some (quals2, seq2, s1) →
      ∃ pre, s = pre ++ s1 ∧
        ∀ t, parse_error_go rvals quals seq (pre ++ t) = some (quals2, seq2, t) := by
  intro rvals
  induction rvals with
  | nil =>
    intro quals seq s quals2 seq2 s1 h
    cases quals with
    | cons q qt => simp [parse_error_go] at h
    | nil =>
      rw [parse_error_go] at h
      simp only [Option.some.injEq, Prod.mk.injEq] at h
      obtain ⟨h1, h2, h3⟩ := h
      refine ⟨[], by simp [← h3], fun t => ?_⟩
      rw [List.nil_append, parse_error_go, ← h1, ← h2]
  | cons rv rvt ih =>
    intro quals seq s quals2 seq2 s1 h
    cases quals with
    | nil => simp [parse_error_go] at h
    | cons q qt =>
      cases seq with
      | nil => simp [parse_error_go] at h
      | cons c ct =>
        rw [parse_error_go] at h
        by_cases hcN : c = EmpDist.N_SYMB
        · rw [if_pos hcN] at h
          split at h
          · next qs cs s2 hrec =>
            simp only [Option.some.injEq, Prod.mk.injEq] at h
            obtain ⟨h1, h2, h3⟩ := h
            obtain ⟨pre0, hpre0, hdet0⟩ := ih _ _ _ _ _ _ hrec
            refine ⟨pre0, by rw [hpre0, h3], fun t2 => ?_⟩
            rw [parse_error_go, if_pos hcN]
            simp only [hdet0 t2]
            rw [h1, h2]
          · simp at h
        · rw [if_neg hcN] at h
          cases hpi : probErrIndex q with
          | none => simp [hpi] at h
          | some qi =>
            simp only [hpi] at h
            by_cases hhit : errHit rv qi = true
            · rw [if_pos hhit] at h
              cases hrb : Art.random_base (some c) s with
              | none => simp [hrb] at h
              | some p =>
                obtain ⟨b, s2⟩ := p
                simp only [hrb] at h
                cases hrec : parse_error_go rvt qt ct s2 with
                | none => simp [hrec] at h
                | some triple =>
                  obtain ⟨qs, cs, s3⟩ := triple
                  simp only [hrec, Option.some.injEq, Prod.mk.injEq] at h
                  obtain ⟨h1, h2, h3⟩ := h
                  obtain ⟨pre1, hpre1, hdet1⟩ := random_base_det _ _ _ _ hrb
                  obtain ⟨pre2, hpre2, hdet2⟩ := ih _ _ _ _ _ _ hrec
                  refine ⟨pre1 ++ pre2,
                    by rw [hpre1, hpre2, h3, List.append_assoc], fun t2 => ?_⟩
                  rw [List.append_assoc, parse_error_go, if_neg hcN]
                  simp only [hpi, if_pos hhit, hdet1 (pre2 ++ t2), hdet2 t2]
                  rw [h1, h2]
            · rw [if_neg hhit] at h
              cases hrec : parse_error_go rvt qt ct s with
              | none => simp [hrec] at h
              | some triple =>
                obtain ⟨qs, cs, s3⟩ := triple
                simp only [hrec, Option.some.injEq, Prod.mk.injEq] at h
                obtain ⟨h1, h2, h3⟩ := h
                obtain ⟨pre0, hpre0, hdet0⟩ := ih _ _ _ _ _ _ hrec
                refine ⟨pre0, by rw [hpre0, h3], fun t2 => ?_⟩
                rw [parse_error_go, if_neg hcN]
                simp only [hpi, if_neg hhit, hdet0 t2]
                rw [h1, h2]

theorem parse_error_det (quals : List ℤ) (seq : List Char) (s : List RVal)
    (quals2 : List ℤ) (seq2 : List Char) (s1 : List RVal)
    (h : parse_error quals seq s = some (quals2, seq2, s1)) :
    ∃ pre, s = pre ++ s1 ∧
      ∀ t, parse_error quals seq (pre ++ t) = some (quals2, seq2, t) := by
  rw [parse_error] at h
  split at h
  · simp at h
  · next rvals s2 hdu =>
    obtain ⟨pre1, hpre1, hdet1⟩ := drawUniforms_det _ _ _ _ hdu
    obtain ⟨pre2, hpre2, hdet2⟩ := parse_error_go_det _ _ _ _ _ _ _ h
    refine ⟨pre1 ++ pre2, by rw [hpre1, hpre2, List.append_assoc], fun t2 => ?_⟩
    rw [List.append_assoc, parse_error]
    simp only [hdet1 (pre2 ++ t2)]
    exact hdet2 t2

theorem _get_from_dist_det (tabs : List (List (ℕ × ℤ))) (read_len : ℕ)
    (s : List RVal) (quals : List ℤ) (s1 : List RVal)
    (h : EmpDist._get_from_dist tabs read_len s = some (quals, s1)) :
    ∃ pre, s = pre ++ s1 ∧
      ∀ t, EmpDist._get_from_dist tabs read_len (pre ++ t) = some (quals, t) := by
  rw [EmpDist._get_from_dist] at h
  split at h
  · simp at h
  · next rvs s2 hdr =>
    split at h
    · simp at h
    · next vs hla =>
      split at h
      · split at h
        · next hlen =>
          simp only [Option.some.injEq, Prod.mk.injEq] at h
          obtain ⟨h1, h2⟩ := h
          obtain ⟨pre0, hpre0, hdet0⟩ := drawRandints_det _ _ _ _ hdr
          refine ⟨pre0, by rw [hpre0, h2], fun t2 => ?_⟩
          rw [EmpDist._get_from_dist]
          simp only [hdet0 t2, hla]
          next hpos =>
            rw [if_pos hpos, if_pos hlen, h1]
        · simp at h
      · simp at h

theorem get_read_qual_det (emp : EmpDist.Tables) (read_len : ℕ) (mate : Bool)
    (s : List RVal) (quals : List ℤ) (s1 : List RVal)
    (h : EmpDist.get_read_qual emp read_len mate s = some (quals, s1)) :
    ∃ pre, s = pre ++ s1 ∧
      ∀ t, EmpDist.get_read_qual emp read_len mate (pre ++ t) = some (quals, t) := by
  rw [EmpDist.get_read_qual] at h
  split at h
  · split at h
    · next hle =>
      obtain ⟨pre, hpre, hdet⟩ := _get_from_dist_det _ _ _ _ _ h
      refine ⟨pre, hpre, fun t2 => ?_⟩
      rw [EmpDist.get_read_qual, if_pos (by assumption), if_pos hle]
      exact hdet t2
    · simp at h
  · split at h
    · next hle =>
      obtain ⟨pre, hpre, hdet⟩ := _get_from_dist_det _ _ _ _ _ h
      refine ⟨pre, hpre, fun t2 => ?_⟩
      rw [EmpDist.get_read_qual, if_neg (by assumption), if_pos hle]
      exact hdet t2
    · simp at h

theorem next_read_indel_seq_det (art_read_len : ℕ) (ins_rate del_rate : List ℚ)
    (emp : EmpDist.Tables) (template : List Char) (ps : Bool) :
    StreamDet (Art.next_read_indel_seq art_read_len ins_rate del_rate emp template ps) := by
  intro s r rest h
  rw [Art.next_read_indel_seq] at h
  set rl : ℕ :=
    (if (Art.make_mutable template).length < art_read_len
     then (Art.make_mutable template).length else art_read_len) with hrl
  split at h
  · simp at h
  · next indel1 slen1 s1 hgi =>
    split at h
    · simp at h
    · next indel slen s2 hstage2 =>
      set sref : List Char :=
        (if ps = true then pySliceTo (Art.make_mutable template) ((art_read_len : ℤ) - slen)
         else pySliceTo (Art.revcomp template) ((art_read_len : ℤ) - slen)) with hsref
      simp only [] at h
      split at h
      · simp at h
      · next seq_read0 hr2r =>
        split at h
        · simp at h
        · next quals0 s3 hgq =>
          split at h
          · simp at h
          · next quals2 seq2 s4x hpe =>
            simp only [Option.some.injEq, Prod.mk.injEq] at h
            obtain ⟨hread, hrest⟩ := h
            obtain ⟨p1, hp1, hd1⟩ := get_indel_det _ _ _ _ _ _ _ hgi
            have hst : ∃ p2, s1 = p2 ++ s2 ∧ ∀ t,
                (if ((art_read_len : ℤ) - slen1 > ((Art.make_mutable template).length : ℤ)) then
                    SeqRead.get_indel_2 rl ins_rate del_rate (p2 ++ t)
                  else some (indel1, slen1, p2 ++ t)) = some (indel, slen, t) := by
              by_cases hfit :
                  ((art_read_len : ℤ) - slen1 > ((Art.make_mutable template).length : ℤ))
              · rw [if_pos hfit] at hstage2
                obtain ⟨p2, hp2, hd2⟩ := get_indel_2_det _ _ _ _ _ _ _ hstage2
                exact ⟨p2, hp2, fun t => by rw [if_pos hfit]; exact hd2 t⟩
              · rw [if_neg hfit] at hstage2
                simp only [Option.some.injEq, Prod.mk.injEq] at hstage2
                obtain ⟨he1, he2, he3⟩ := hstage2
                refine ⟨[], by simp [← he3], fun t => ?_⟩
                rw [if_neg hfit, he1, he2]
                simp
            obtain ⟨p2, hp2, hd2⟩ := hst
            obtain ⟨p3, hp3, hd3⟩ := get_read_qual_det _ _ _ _ _ _ hgq
            obtain ⟨p4, hp4, hd4⟩ := parse_error_det _ _ _ _ _ _ hpe
            refine ⟨p1 ++ (p2 ++ (p3 ++ p4)), ?_, fun t => ?_⟩
            · rw [hp1, hp2, hp3, hp4, ← hrest]
              simp [List.append_assoc]
            · rw [Art.next_read_indel_seq]
              simp only [← hrl, List.append_assoc]
              simp only [hd1 (p2 ++ (p3 ++ (p4 ++ t))), hd2 (p3 ++ (p4 ++ t))]
              simp only [← hsref]
              simp only [hr2r, hd3 (p4 ++ t), hd4 t]
              rw [hread]

theorem next_read_indel_at_det (art_read_len : ℕ) (ins_rate del_rate : List ℚ)
    (emp : EmpDist.Tables) (ref_seq ref_seq_cmp : List Char) (pos : ℕ) (ps : Bool) :
    StreamDet (Art.next_read_indel_at art_read_len ins_rate del_rate emp
      ref_seq ref_seq_cmp pos ps) := by
  intro s r rest h
  rw [Art.next_read_indel_at] at h
  split at h
  · simp at h
  · next indel1 slen1 s1 hgi =>
    split at h
    · simp at h
    · next indel slen s2 hstage2 =>
      set sref : List Char :=
        (if ps = true
         then pySliceFrom ref_seq pos ((pos : ℤ) + (art_read_len : ℤ) - slen)
         else pySliceFrom ref_seq_cmp pos ((pos : ℤ) + (art_read_len : ℤ) - slen)) with hsref
      simp only [] at h
      split at h
      · simp at h
      · next seq_read0 hr2r =>
        split at h
        · simp at h
        · next quals0 s3 hgq =>
          split at h
          · simp at h
          · next quals2 seq2 s4x hpe =>
            simp only [Option.some.injEq, Prod.mk.injEq] at h
            obtain ⟨hread, hrest⟩ := h
            obtain ⟨p1, hp1, hd1⟩ := get_indel_det _ _ _ _ _ _ _ hgi
            have hst : ∃ p2, s1 = p2 ++ s2 ∧ ∀ t,
                (if ((pos : ℤ) + (art_read_len : ℤ) - slen1 > ((ref_seq.length : ℕ) : ℤ)) then
                    SeqRead.get_indel_2 art_read_len ins_rate del_rate (p2 ++ t)
                  else some (indel1, slen1, p2 ++ t)) = some (indel, slen, t) := by
              by_cases hfit :
                  ((pos : ℤ) + (art_read_len : ℤ) - slen1 > ((ref_seq.length : ℕ) : ℤ))
              · rw [if_pos hfit] at hstage2
                obtain ⟨p2, hp2, hd2⟩ := get_indel_2_det _ _ _ _ _ _ _ hstage2
                exact ⟨p2, hp2, fun t => by rw [if_pos hfit]; exact hd2 t⟩
              · rw [if_neg hfit] at hstage2
                simp only [Option.some.injEq, Prod.mk.injEq] at hstage2
                obtain ⟨he1, he2, he3⟩ := hstage2
                refine ⟨[], by simp [← he3], fun t => ?_⟩
                rw [if_neg hfit, he1, he2]
                simp
            obtain ⟨p2, hp2, hd2⟩ := hst
            obtain ⟨p3, hp3, hd3⟩ := get_read_qual_det _ _ _ _ _ _ hgq
            obtain ⟨p4, hp4, hd4⟩ := parse_error_det _ _ _ _ _ _ hpe
            refine ⟨p1 ++ (p2 ++ (p3 ++ p4)), ?_, fun t => ?_⟩
            · rw [hp1, hp2, hp3, hp4, ← hrest]
              simp [List.append_assoc]
            · rw [Art.next_read_indel_at]
              simp only [List.append_assoc]
              simp only [hd1 (p2 ++ (p3 ++ (p4 ++ t))), hd2 (p3 ++ (p4 ++ t))]
              simp only [← hsref]
              simp only [hr2r, hd3 (p4 ++ t), hd4 t]
              rw [hread]

/-- C8: read generation is reproducible under the shared random stream.
Each of the stream-consuming read operations (`next_read_indel_seq`,
`next_read_indel_at`) is prefix-deterministic: a successful run is fully
determined by the prefix of the stream it consumed, so two runs over the
same seeded stream and inputs produce identical reads (sequence, qualities
and indel map), and any change in the consumed draws — i.e. any reordering
of the sampling decisions — changes the prefix the result depends on.
`next_read_simple_seq` consumes no randomness at all: it returns the same
read on every stream, leaving the stream untouched. -/
theorem read_generation_deterministic (art_read_len : ℕ) (ins_rate del_rate : List ℚ)
    (emp : EmpDist.Tables) (template ref_seq ref_seq_cmp : List Char)
    (pos : ℕ) (ps : Bool) (qual_val : ℤ) :
    StreamDet (Art.next_read_indel_seq art_read_len ins_rate del_rate emp template ps) ∧
    StreamDet (Art.next_read_indel_at art_read_len ins_rate del_rate emp
      ref_seq ref_seq_cmp pos ps) ∧
    StreamDet (fun s => (Art.next_read_simple_seq art_read_len template ps qual_val).map
      (fun read => (read, s))) := by
  refine ⟨next_read_indel_seq_det art_read_len ins_rate del_rate emp template ps,
    next_read_indel_at_det art_read_len ins_rate del_rate emp ref_seq ref_seq_cmp pos ps,
    ?_⟩
  intro s r rest h
  cases hss : Art.next_read_simple_seq art_read_len template ps qual_val with
  | none => rw [hss] at h; simp at h
  | some read =>
    rw [hss] at h
    have h12 : read = r ∧ s = rest := by simpa using h
    refine ⟨[], by simp [h12.2], fun t => ?_⟩
    simp only [List.nil_append, hss, Option.map_some, h12.1]
    rfl

/-- Witness for C8: the concrete indel-free run of `next_read_indel_seq`,
showing its consumed prefix determines the read. -/
theorem read_generation_deterministic_witness :
    ∃ pre, ([RVal.unif (mkRat 9 10), RVal.unif (mkRat 9 10), RVal.rint 0, RVal.rint 0,
        RVal.unif (mkRat 1 2), RVal.unif (mkRat 1 2)] : List RVal) = pre ++ [] ∧
      ∀ t, Art.next_read_indel_seq 2 [mkRat 1 100] [mkRat 1 100]
          ⟨[[(1000000, 40)], [(1000000, 40)]], []⟩ ['A', 'C', 'G'] true (pre ++ t)
        = some (ARead.mk ['A', 'C'] [40, 40] [] 2, t) :=
  (read_generation_deterministic 2 [mkRat 1 100] [mkRat 1 100]
      ⟨[[(1000000, 40)], [(1000000, 40)]], []⟩ ['A', 'C', 'G'] [] [] 0 true 40).1
    [RVal.unif (mkRat 9 10), RVal.unif (mkRat 9 10), RVal.rint 0, RVal.rint 0,
     RVal.unif (mkRat 1 2), RVal.unif (mkRat 1 2)]
    (ARead.mk ['A', 'C'] [40, 40] [] 2) [] (by decide)
